import Mathlib

set_option autoImplicit false
set_option maxRecDepth 10000

namespace UbuntuSetup

/-! Shallow embedding of the two scripts of the repository.

`src/linuxmint-setup.py` : the journald configuration patcher
`Setup.set_journald_property` is modelled at the level of file contents.
A file content is a `List Char`; `splitLines` mirrors Python's
`readlines` on text read with `\n` line endings (each line keeps its
terminating newline, a final piece without a newline is kept as is).

`src/firefox_setup.py` : the preference writer `firefox_cfg_setup` is
modelled as the string it writes to `/usr/lib/firefox/firefox.cfg`. -/

/-- Whitespace characters stripped by Python's `str.strip()` (ASCII range). -/
def pyIsSpace (c : Char) : Bool :=
  c = ' ' || c = '\t' || c = '\n' || c = '\r' || c = '\x0b' || c = '\x0c'

/-- Python `str.strip()`, left part. -/
def pyStripLeft (l : List Char) : List Char := l.dropWhile pyIsSpace

/-- Python `str.strip()`, right part. -/
def pyStripRight (l : List Char) : List Char := (l.reverse.dropWhile pyIsSpace).reverse

/-- Python `str.strip()` on a list of characters. -/
def pyStrip (l : List Char) : List Char := pyStripRight (pyStripLeft l)

/-- Prepend a character to the first line of a line list (auxiliary to `splitLines`). -/
def consFirst (c : Char) : List (List Char) → List (List Char)
  | [] => [[c]]
  | l :: ls => (c :: l) :: ls

/-- Split a file content into lines the way Python's `f.readlines()` does:
each line keeps its terminating `\n`; a trailing piece without a newline is
one final line; the empty content has no lines. -/
def splitLines : List Char → List (List Char)
  | [] => []
  | c :: cs => if c = '\n' then ['\n'] :: splitLines cs else consFirst c (splitLines cs)

/-- The section marker string `[Journal]` from `set_journald_property`. -/
def marker : List Char := "[Journal]".data

/-- Substring test: does `pat` occur as a contiguous run inside the list? -/
def hasInfix (pat : List Char) : List Char → Bool
  | [] => pat.isEmpty
  | c :: cs => pat.isPrefixOf (c :: cs) || hasInfix pat cs

/-- The membership test `"[Journal]" in line` from the insertion loop. -/
def containsMarker (l : List Char) : Bool := hasInfix marker l

/-- The removal test of the filtering loop of `set_journald_property`:
`line.strip().startswith(f"{key}=") or line.strip().startswith(f"#{key}=")`. -/
def assignsKey (key : String) (l : List Char) : Bool :=
  (key.data ++ ['=']).isPrefixOf (pyStrip l) || (('#' :: key.data) ++ ['=']).isPrefixOf (pyStrip l)

/-- The inserted assignment line `f"{key}={value}\n"`. -/
def insLine (key value : String) : List Char := key.data ++ '=' :: (value.data ++ ['\n'])

/-- The line `"[Journal]\n"` that heads the element prepended when no section is found. -/
def sectionHeader : List Char := marker ++ ['\n']

/-- The insertion loop of `set_journald_property`: every line is kept, and after
each line containing `[Journal]` the fresh assignment line is appended. -/
def insertAfterMarker (ins : List Char) : List (List Char) → List (List Char)
  | [] => []
  | l :: ls =>
    if containsMarker l then l :: ins :: insertAfterMarker ins ls
    else l :: insertAfterMarker ins ls

/-- The line transformation of `set_journald_property`: drop every line whose
stripped form starts with `key=` or `#key=`, then insert the fresh assignment
after each line containing `[Journal]`; if no such line exists, prepend the
single element `f"[Journal]\n{key}={value}\n"`. -/
def updateLines (key value : String) (lines : List (List Char)) : List (List Char) :=
  let newLines := lines.filter (fun l => !assignsKey key l)
  if newLines.any containsMarker then insertAfterMarker (insLine key value) newLines
  else (sectionHeader ++ insLine key value) :: newLines

/-- The content-level effect of one successful `set_journald_property` call:
read lines, transform them, write them back (`writelines` concatenates). -/
def journaldUpdate (key value : String) (content : List Char) : List Char :=
  (updateLines key value (splitLines content)).flatten

/-- The unit letters of the character class `[KMGTPsmhday]` in `val_regex`. -/
def unitChars : List Char := ['K', 'M', 'G', 'T', 'P', 's', 'm', 'h', 'd', 'a', 'y']

/-- The character class `[0-9]`. -/
def isDigit (c : Char) : Bool := '0' ≤ c && c ≤ '9'

/-- The fixed tokens of the second alternative of `val_regex`. -/
def journaldTokens : List String := ["persistent", "auto", "volatile", "yes", "no"]

/-- What may follow the digits in the first alternative `^[0-9]+[KMGTPsmhday]?$`
of `val_regex` under Python semantics: `$` matches at the end of the string or
just before a newline at the end of the string. -/
def dollarRest : List Char → Bool
  | [] => true
  | [c] => c = '\n' || unitChars.contains c
  | [u, c] => unitChars.contains u && c = '\n'
  | _ => false

/-- Python's `re.match(val_regex, value)` as a Boolean, with
`val_regex = r"(^[0-9]+[KMGTPsmhday]?$)|(^(persistent|auto|volatile|yes|no)$)"`.
Both alternatives are anchored; Python's `$` also matches just before a
trailing newline, hence the `++ ['\n']` cases. -/
def val_regex_match (v : String) : Bool :=
  (!(v.data.takeWhile isDigit).isEmpty && dollarRest (v.data.dropWhile isDigit))
  || journaldTokens.any (fun t => v.data = t.data || v.data = t.data ++ ['\n'])

/-- What may follow the digits according to the spec's words: nothing, or one
unit letter (no trailing-newline allowance). -/
def specDollarRest : List Char → Bool
  | [] => true
  | [u] => unitChars.contains u
  | _ => false

/-- The allow-pattern as the spec states it: a digit string optionally followed
by one unit letter, or one of the fixed tokens. -/
def specAllowPattern (v : String) : Bool :=
  (!(v.data.takeWhile isDigit).isEmpty && specDollarRest (v.data.dropWhile isDigit))
  || journaldTokens.any (fun t => v.data = t.data)

/-- Keys as used at every call site of `set_journald_property` (`Storage`,
`SystemMaxUse`, `SystemMaxFileSize`, `SyncIntervalSec`): nonempty and purely
alphanumeric ASCII. -/
def isAlphaNum (c : Char) : Bool := ('a' ≤ c && c ≤ 'z') || ('A' ≤ c && c ≤ 'Z') || isDigit c

/-- A well-formed journald key: nonempty, ASCII alphanumeric characters only. -/
def goodKey (k : String) : Bool := !k.data.isEmpty && k.data.all isAlphaNum

/-- Which filesystem primitive of `set_journald_property` raises an `OSError`,
if any: the `shutil.copy2` backup, the read, or the rewrite of the file. -/
inductive FsErr
  | copyFail
  | readFail
  | writeFail
deriving DecidableEq, Repr

/-- The filesystem state touched by `set_journald_property`: the content of
`/etc/systemd/journald.conf` and the optional content of its `.bak` sibling
(`none` means the backup file does not exist). -/
structure FsState where
  config : List Char
  backup : Option (List Char)
deriving DecidableEq, Repr

/-- The backup step: `if not os.path.exists(backup_file): shutil.copy2(...)`.
`Except.error` carries the state at the moment the exception is raised. -/
def backupStep (oracle : Option FsErr) (s : FsState) : Except FsState FsState :=
  if s.backup.isNone then
    if oracle = some FsErr.copyFail then Except.error s
    else Except.ok { s with backup := some s.config }
  else Except.ok s

/-- The function `Setup.set_journald_property(key, value)`: validate the value
against `val_regex`, create the backup if absent, read, transform and rewrite
the config file; any raised filesystem error (modelled by `oracle`) is caught
and turns into a `false` return with the state reached so far. Returns the
Boolean result of the call together with the final filesystem state. -/
def set_journald_property (oracle : Option FsErr) (key value : String) (s : FsState) :
    Bool × FsState :=
  if !val_regex_match value then (false, s)
  else
    match backupStep oracle s with
    | Except.error s1 => (false, s1)
    | Except.ok s1 =>
      if oracle = some FsErr.readFail then (false, s1)
      else if oracle = some FsErr.writeFail then (false, s1)
      else (true, { s1 with config := journaldUpdate key value s1.config })

/-- A line consisting of a newline-free body followed by a terminating newline. -/
def properLine (l : List Char) : Prop := ∃ b, l = b ++ ['\n'] ∧ '\n' ∉ b

/-- The shape every line produced by `splitLines` has: nonempty, and any
newline can only be its last character. -/
def lineShape (l : List Char) : Prop := l ≠ [] ∧ '\n' ∉ l.dropLast

/-- Well-formed line lists: every line has `lineShape`, and every line except
possibly the last is newline-terminated. -/
def wfLines : List (List Char) → Prop
  | [] => True
  | l :: ls => lineShape l ∧ (ls = [] ∨ properLine l) ∧ wfLines ls

/-! Model of the command line interface of `linuxmint-setup.py`
(`Setup.options`, `Setup.cli_options`, `Setup.check_argv` and the dispatch
in `main`). -/

/-- The six `store_true` flags of `Setup.options`, in source order. -/
structure CliArgs where
  update : Bool
  remove : Bool
  install : Bool
  vscode : Bool
  clean : Bool
  system : Bool
deriving DecidableEq, Repr

/-- All flags default to false (`argparse` `store_true` default). -/
def defaultArgs : CliArgs := ⟨false, false, false, false, false, false⟩

/-- One recognized command line token sets its flag (`-h`, `--help` and unknown
tokens are handled by `parseArgsFrom`). -/
def applyFlag (a : CliArgs) (tok : String) : Option CliArgs :=
  if tok = "-u" || tok = "--update" then some { a with update := true }
  else if tok = "-r" || tok = "--remove" then some { a with remove := true }
  else if tok = "-i" || tok = "--install" then some { a with install := true }
  else if tok = "--vscode" then some { a with vscode := true }
  else if tok = "-c" || tok = "--clean" then some { a with clean := true }
  else if tok = "-s" || tok = "--system" then some { a with system := true }
  else none

/-- The `parse_args` call of `cli_options`: fold the recognized flags over the
tokens after the program name; `none` models `argparse` terminating the
process early (help or unrecognized argument) before `check_argv` runs. -/
def parseArgsFrom (a : CliArgs) : List String → Option CliArgs
  | [] => some a
  | t :: ts =>
    match applyFlag a t with
    | some a' => parseArgsFrom a' ts
    | none => none

/-- The flag-selected actions dispatched by `main`, in program order. -/
inductive MainAction
  | update
  | remove
  | install
  | vscode
  | clean
  | system
deriving DecidableEq, Repr

/-- Which actions `main` runs for parsed flags, in the order of its `if`
blocks. -/
def selectedActions (a : CliArgs) : List MainAction :=
  (if a.update then [MainAction.update] else [])
    ++ (if a.remove then [MainAction.remove] else [])
    ++ (if a.install then [MainAction.install] else [])
    ++ (if a.vscode then [MainAction.vscode] else [])
    ++ (if a.clean then [MainAction.clean] else [])
    ++ (if a.system then [MainAction.system] else [])

/-- Observable outcome of a run of `main`: early exit status (if any), whether
the usage text was printed, and which flag-selected actions were dispatched. -/
structure MainOutcome where
  exitCode : Option Nat
  usagePrinted : Bool
  actions : List MainAction
deriving DecidableEq, Repr

/-- The control flow of `main`: `cli_options` parses the flags, `check_argv`
prints the help and exits with status 1 when only the program name was given,
and otherwise the selected actions run. An `argparse`-terminated parse (help
or unknown token) is modelled as an early exit with usage printed; no claim
depends on its specific status value. -/
def mainModel (argv : List String) : MainOutcome :=
  match parseArgsFrom defaultArgs argv.tail with
  | none => ⟨some 2, true, []⟩
  | some a =>
    if argv.length = 1 then ⟨some 1, true, []⟩
    else ⟨none, false, selectedActions a⟩

/-- The patching algorithm as the amended claim C5 words it: drop every line
whose whitespace-stripped form starts with `key=` or `#key=`, then emit every
kept line, following each line that contains the section marker with a fresh
`key=value` line; when no kept line contains the marker, emit the new section
header and the assignment before all kept lines. -/
def specUpdateAmended (key value : String) (content : List Char) : List Char :=
  let kept := (splitLines content).filter (fun l => !assignsKey key l)
  if kept.any containsMarker then
    ((kept.map (fun l => if containsMarker l then [l, insLine key value] else [l])).flatten).flatten
  else ((sectionHeader ++ insLine key value) :: kept).flatten

/-- Insertion after only the first marker line, as claim C5 states it. -/
def insertAfterFirstMarker (ins : List Char) : List (List Char) → List (List Char)
  | [] => []
  | l :: ls =>
    if containsMarker l then l :: ins :: ls
    else l :: insertAfterFirstMarker ins ls

/-- The algorithm exactly as claim C5 words it: drop every line that starts
(without stripping) with `key=` or `#key=`, insert one fresh assignment
immediately after the first line containing the section marker, and prepend
the new header only when the marker is never found. -/
def specUpdateClaim (key value : String) (content : List Char) : List Char :=
  let kept := (splitLines content).filter (fun l =>
    !((key.data ++ ['=']).isPrefixOf l || (('#' :: key.data) ++ ['=']).isPrefixOf l))
  if kept.any containsMarker then (insertAfterFirstMarker (insLine key value) kept).flatten
  else ((sectionHeader ++ insLine key value) :: kept).flatten

/-! Model of `firefox_setup.py`, function `firefox_cfg_setup`. -/

/-- One write action of `firefox_cfg_setup`: a comment separator or a locked
preference. -/
inductive CfgItem
  | comment (text : String)
  | pref (key : String) (value : String)
deriving DecidableEq, Repr

/-- The text `comment(f, text)` writes: `f"\n// {text}\n"`. -/
def renderComment (text : String) : List Char :=
  '\n' :: (('/' :: '/' :: ' ' :: text.data) ++ ['\n'])

/-- The text `lock_pref(f, key, value)` writes:
`f'lockPref("{key}", {value});\n'`. -/
def renderPref (key value : String) : List Char :=
  "lockPref(\"".data ++ key.data ++ "\", ".data ++ value.data ++ ");\n".data

/-- Rendering of one write action. -/
def renderItem : CfgItem → List Char
  | CfgItem.comment t => renderComment t
  | CfgItem.pref k v => renderPref k v

/-- The exact sequence of `comment` and `lock_pref` calls in
`firefox_cfg_setup`, in source order, with every value rendered the way the
Python f-string renders it (the local `true`/`false` strings, decimal
integers, and the one quoted path value). -/
def firefoxCfgItems : List CfgItem := [
  CfgItem.comment "Firefox configuration file",
  CfgItem.comment "General tweaks",
  CfgItem.pref "network.captive-portal-service.enabled" "false",
  CfgItem.pref "network.notify.checkForProxies" "false",
  CfgItem.comment "Browser cache",
  CfgItem.pref "browser.cache.disk.parent_directory" "\"/dev/shm/ffcache\"",
  CfgItem.pref "browser.cache.disk.capacity" "8192000",
  CfgItem.pref "browser.cache.disk.smart_size.enabled" "false",
  CfgItem.pref "browser.frecency_half_life_hours" "18",
  CfgItem.pref "browser.max_shutdown_io_lag" "16",
  CfgItem.pref "browser.cache.memory.capacity" "2097152",
  CfgItem.pref "browser.cache.memory.max_entry_size" "327680",
  CfgItem.pref "browser.cache.disk.metadata_memory_limit" "15360",
  CfgItem.comment "GFX rendering tweaks",
  CfgItem.pref "gfx.canvas.accelerated" "true",
  CfgItem.pref "gfx.canvas.accelerated.cache-items" "32768",
  CfgItem.pref "gfx.canvas.accelerated.cache-size" "4096",
  CfgItem.pref "gfx.content.skia-font-cache-size" "80",
  CfgItem.pref "gfx.webrender.all" "true",
  CfgItem.pref "gfx.webrender.compositor" "true",
  CfgItem.pref "gfx.webrender.compositor.force-enabled" "true",
  CfgItem.pref "gfx.webrender.enabled" "true",
  CfgItem.pref "gfx.webrender.precache-shaders" "true",
  CfgItem.pref "gfx.webrender.program-binary-disk" "true",
  CfgItem.pref "gfx.webrender.software.opengl" "true",
  CfgItem.pref "image.cache.size" "10485760",
  CfgItem.pref "image.mem.decode_bytes_at_a_time" "65536",
  CfgItem.pref "image.mem.shared.unmap.min_expiration_ms" "120000",
  CfgItem.pref "layers.acceleration.force-enabled" "true",
  CfgItem.pref "layers.gpu-process.enabled" "true",
  CfgItem.pref "layers.gpu-process.force-enabled" "true",
  CfgItem.pref "layers.mlgpu.enabled" "true",
  CfgItem.pref "media.ffmpeg.vaapi.enabled" "true",
  CfgItem.pref "media.gpu-process-decoder" "true",
  CfgItem.pref "media.memory_cache_max_size" "1048576",
  CfgItem.pref "media.memory_caches_combined_limit_kb" "3145728",
  CfgItem.pref "media.hardware-video-decoding.force-enabled" "true",
  CfgItem.pref "webgl.force-enabled" "true",
  CfgItem.pref "webgl.msaa-force" "true",
  CfgItem.pref "webgl.max-size" "16384",
  CfgItem.pref "dom.webgpu.enabled" "true",
  CfgItem.comment "Increase predictive network operations",
  CfgItem.pref "network.dns.disablePrefetchFromHTTPS" "false",
  CfgItem.pref "network.dnsCacheEntries" "20000",
  CfgItem.pref "network.dnsCacheExpiration" "3600",
  CfgItem.pref "network.dnsCacheExpirationGracePeriod" "240",
  CfgItem.pref "network.predictor.enable-hover-on-ssl" "true",
  CfgItem.pref "network.predictor.enable-prefetch" "true",
  CfgItem.pref "network.predictor.preconnect-min-confidence" "20",
  CfgItem.pref "network.predictor.prefetch-force-valid-for" "3600",
  CfgItem.pref "network.predictor.prefetch-min-confidence" "30",
  CfgItem.pref "network.predictor.prefetch-rolling-load-count" "120",
  CfgItem.pref "network.predictor.preresolve-min-confidence" "10",
  CfgItem.comment "Faster SSL",
  CfgItem.pref "network.ssl_tokens_cache_capacity" "32768",
  CfgItem.comment "Disable network seperations",
  CfgItem.pref "fission.autostart" "false",
  CfgItem.pref "privacy.partition.network_state" "false",
  CfgItem.comment "Reduce the number of processes",
  CfgItem.pref "dom.ipc.processCount" "1",
  CfgItem.pref "dom.ipc.processCount.webIsolated" "1",
  CfgItem.comment "Enable HTTP pipelining",
  CfgItem.pref "network.http.pipelining" "true",
  CfgItem.pref "network.http.proxy.pipelining" "true",
  CfgItem.pref "network.http.proxy.pipelining.ssl" "true",
  CfgItem.pref "network.http.pipelining.maxrequests" "25",
  CfgItem.comment "Reduce initial paint delay",
  CfgItem.pref "nglayout.initialpaint.delay" "0",
  CfgItem.pref "nglayout.initialpaint.delay_in_oopif" "0",
  CfgItem.comment "DNS and TRR settings",
  CfgItem.pref "network.dns.disableIPv6" "true",
  CfgItem.pref "network.trr.mode" "2",
  CfgItem.comment "Privacy enhancements",
  CfgItem.pref "network.http.http3.enabled" "true",
  CfgItem.pref "network.http.referer.XOriginPolicy" "2",
  CfgItem.pref "network.http.referer.XOriginTrimmingPolicy" "2",
  CfgItem.pref "toolkit.telemetry.enabled" "false",
  CfgItem.pref "datareporting.healthreport.uploadEnabled" "false",
  CfgItem.comment "Connection limits",
  CfgItem.pref "network.http.speculative-parallel-limit" "16",
  CfgItem.pref "network.http.max-persistent-connections-per-server" "10",
  CfgItem.pref "network.http.max-connections" "1800",
  CfgItem.comment "User interface preferences",
  CfgItem.pref "ui.prefersReducedMotion" "1",
  CfgItem.pref "browser.uidensity" "1",
  CfgItem.pref "browser.compactmode.show" "true",
  CfgItem.pref "toolkit.cosmeticAnimations.enabled" "false",
  CfgItem.pref "browser.ml.enable" "false",
  CfgItem.pref "browser.ml.chat.enabled" "false",
  CfgItem.pref "browser.ml.chat.menu" "false",
  CfgItem.pref "browser.tabs.groups.smart.enabled" "false",
  CfgItem.pref "browser.ml.linkPreview.enabled" "false",
  CfgItem.comment "Media preferences",
  CfgItem.pref "media.peerconnection.enabled" "false",
  CfgItem.pref "media.autoplay.default" "2"]

/-- The full content `firefox_cfg_setup` writes to `firefox.cfg`. -/
def firefox_cfg_content : List Char := (firefoxCfgItems.map renderItem).flatten

/-- The ordered input list of (key, value) preference pairs. -/
def firefoxPrefs : List (String × String) :=
  firefoxCfgItems.filterMap (fun i =>
    match i with
    | CfgItem.pref k v => some (k, v)
    | CfgItem.comment _ => none)

/-- A line of the written file that locks a preference. -/
def lockPrefLine (l : List Char) : Bool := "lockPref(".data.isPrefixOf l

/-- A blank line (nothing but whitespace). -/
def blankLine (l : List Char) : Bool := (pyStrip l).isEmpty

/-- A comment separator line. -/
def commentLine (l : List Char) : Bool := "// ".data.isPrefixOf l

/-- Every blank line of the file is exactly the single blank line immediately
preceding a comment separator, and the file does not end in a blank line. -/
def blanksMatchComments : List (List Char) → Bool
  | [] => true
  | [l] => !blankLine l
  | l1 :: l2 :: ls => (blankLine l1 == commentLine l2) && blanksMatchComments (l2 :: ls)

/-! Concrete filesystem states used by witnesses and counterexamples. -/

/-- A config with one marker line, one commented setting and a final newline. -/
def stateA : FsState := ⟨"x\n[Journal]\nStorage=auto\n".data, none⟩

/-- A config holding just the section header, no backup yet. -/
def stateB : FsState := ⟨"[Journal]\n".data, none⟩

/-- A config with no `[Journal]` section and no assignment of the keys used. -/
def stateD : FsState := ⟨"foo\nbar\n".data, none⟩

/-! Basic theory of `splitLines`: it is a left inverse of concatenation, its
output lines are nonempty, contain no interior newline, and every line except
possibly the last ends with a newline. -/

theorem properLine_lineShape {l : List Char} (h : properLine l) : lineShape l := by
  obtain ⟨b, rfl, hb⟩ := h
  exact ⟨by simp, by simpa using hb⟩

theorem lineShape_cases {l : List Char} (h : lineShape l) : properLine l ∨ ('\n' ∉ l ∧ l ≠ []) := by
  obtain ⟨hne, hnl⟩ := h
  rcases eq_or_ne (l.getLast hne) '\n' with hlast | hlast
  · left
    refine ⟨l.dropLast, ?_, hnl⟩
    rw [← hlast, List.dropLast_append_getLast hne]
  · right
    refine ⟨?_, hne⟩
    intro hmem
    have := List.dropLast_append_getLast hne
    rw [← this] at hmem
    rcases List.mem_append.mp hmem with h1 | h1
    · exact hnl h1
    · simp at h1
      exact hlast h1.symm

theorem consFirst_flatten (c : Char) (S : List (List Char)) :
    (consFirst c S).flatten = c :: S.flatten := by
  cases S <;> simp [consFirst]

theorem flatten_splitLines (cs : List Char) : (splitLines cs).flatten = cs := by
  induction cs with
  | nil => rfl
  | cons c cs ih =>
    by_cases h : c = '\n'
    · subst h
      simp [splitLines, ih]
    · simp [splitLines, h, consFirst_flatten, ih]

theorem splitLines_ne_nil {cs : List Char} (h : cs ≠ []) : splitLines cs ≠ [] := by
  match cs with
  | c :: cs =>
    simp only [splitLines]
    split
    · simp
    · cases hS : splitLines cs <;> simp [consFirst]

theorem splitLines_line_cons {b : List Char} (rest : List Char) (hb : '\n' ∉ b) :
    splitLines (b ++ '\n' :: rest) = (b ++ ['\n']) :: splitLines rest := by
  induction b with
  | nil => simp [splitLines]
  | cons c b ih =>
    have hc : c ≠ '\n' := fun h => hb (h ▸ List.mem_cons_self c b)
    have hb' : '\n' ∉ b := fun h => hb (List.mem_cons_of_mem c h)
    show splitLines (c :: (b ++ '\n' :: rest)) = _
    rw [splitLines, if_neg hc, ih hb']
    rfl

theorem splitLines_no_nl {l : List Char} (h : '\n' ∉ l) :
    splitLines l = if l = [] then [] else [l] := by
  induction l with
  | nil => rfl
  | cons c l ih =>
    have hc : c ≠ '\n' := fun hh => h (hh ▸ List.mem_cons_self c l)
    have hl : '\n' ∉ l := fun hh => h (List.mem_cons_of_mem c hh)
    simp only [splitLines, if_neg hc, ih hl]
    by_cases hln : l = []
    · subst hln; simp [consFirst]
    · simp [hln, consFirst]

theorem lineShape_cons {c : Char} {l : List Char} (hc : c ≠ '\n') (h : lineShape l) :
    lineShape (c :: l) := by
  obtain ⟨hne, hnl⟩ := h
  refine ⟨by simp, ?_⟩
  rw [List.dropLast_cons_of_ne_nil hne]
  intro hmem
  rcases List.mem_cons.mp hmem with h1 | h1
  · exact hc h1.symm
  · exact hnl h1

theorem properLine_cons {c : Char} {l : List Char} (hc : c ≠ '\n') (h : properLine l) :
    properLine (c :: l) := by
  obtain ⟨b, rfl, hb⟩ := h
  refine ⟨c :: b, rfl, ?_⟩
  intro hmem
  rcases List.mem_cons.mp hmem with h1 | h1
  · exact hc h1.symm
  · exact hb h1

theorem wfLines_splitLines (cs : List Char) : wfLines (splitLines cs) := by
  induction cs with
  | nil => trivial
  | cons c cs ih =>
    by_cases h : c = '\n'
    · subst h
      simp only [splitLines, if_pos rfl]
      refine ⟨⟨by simp, by simp⟩, ?_, ih⟩
      exact Or.inr ⟨[], rfl, by simp⟩
    · simp only [splitLines, if_neg h]
      cases hS : splitLines cs with
      | nil => exact ⟨⟨by simp, by simp⟩, Or.inl rfl, trivial⟩
      | cons l ls =>
        rw [hS] at ih
        obtain ⟨h1, h2, h3⟩ := ih
        refine ⟨lineShape_cons h h1, ?_, h3⟩
        rcases h2 with h2 | h2
        · exact Or.inl h2
        · exact Or.inr (properLine_cons h h2)

theorem splitLines_flatten {ls : List (List Char)} (h : wfLines ls) :
    splitLines ls.flatten = ls := by
  induction ls with
  | nil => rfl
  | cons l ls ih =>
    obtain ⟨hshape, hmid, hwf⟩ := h
    rcases hmid with hnil | hprop
    · subst hnil
      simp only [List.flatten_cons, List.flatten_nil, List.append_nil]
      rcases lineShape_cases hshape with hp | ⟨hnl, hne⟩
      · obtain ⟨b, rfl, hb⟩ := hp
        have := splitLines_line_cons ([] : List Char) hb
        simpa using this
      · rw [splitLines_no_nl hnl, if_neg hne]
    · obtain ⟨b, rfl, hb⟩ := hprop
      have : (b ++ ['\n']) ++ ls.flatten = b ++ '\n' :: ls.flatten := by simp
      rw [List.flatten_cons, this, splitLines_line_cons _ hb, ih hwf]

theorem wfLines_sublist {ls' ls : List (List Char)} (hs : ls'.Sublist ls) (h : wfLines ls) :
    wfLines ls' := by
  induction hs with
  | slnil => trivial
  | cons a _ ih => exact ih h.2.2
  | cons₂ a hs ih =>
    obtain ⟨hshape, hmid, hwf⟩ := h
    refine ⟨hshape, ?_, ih hwf⟩
    rcases hmid with hnil | hprop
    · subst hnil
      exact Or.inl (List.sublist_nil.mp hs)
    · exact Or.inr hprop

theorem wfLines_append {X Y : List (List Char)} (hX : ∀ l ∈ X, properLine l)
    (hY : wfLines Y) : wfLines (X ++ Y) := by
  induction X with
  | nil => simpa using hY
  | cons x X ih =>
    have hx : properLine x := hX x (List.mem_cons_self x X)
    refine ⟨properLine_lineShape hx, Or.inr hx, ?_⟩
    exact ih fun l hl => hX l (List.mem_cons_of_mem x hl)

theorem wfLines_middle {X Y : List (List Char)} {m : List Char}
    (h : wfLines (X ++ m :: Y)) (hY : Y ≠ []) : properLine m := by
  induction X with
  | nil =>
    rcases h.2.1 with h1 | h1
    · exact absurd h1 hY
    · exact h1
  | cons x X ih => exact ih h.2.2

theorem wfLines_mem {ls : List (List Char)} {l : List Char} (h : wfLines ls) (hm : l ∈ ls) :
    lineShape l := by
  induction ls with
  | nil => simp at hm
  | cons a ls ih =>
    rcases List.mem_cons.mp hm with h1 | h1
    · exact h1 ▸ h.1
    · exact ih h.2.2 h1

theorem splitLines_all_proper {cs : List Char} (h : cs.getLast? = some '\n') :
    ∀ l ∈ splitLines cs, properLine l := by
  induction cs with
  | nil => simp at h
  | cons c cs ih =>
    by_cases hcs : cs = []
    · subst hcs
      have hc : c = '\n' := by simpa using h
      subst hc
      intro l hl
      have hone : splitLines ['\n'] = [['\n']] := by decide
      rw [hone] at hl
      simp at hl
      exact hl ▸ ⟨[], rfl, by simp⟩
    · have hcons : (c :: cs).getLast? = cs.getLast? := by
        cases cs with
        | nil => exact absurd rfl hcs
        | cons d ds => simp [List.getLast?_cons_cons]
      have h' : cs.getLast? = some '\n' := by rwa [hcons] at h
      intro l hl
      by_cases hc : c = '\n'
      · subst hc
        simp only [splitLines, if_pos rfl] at hl
        rcases List.mem_cons.mp hl with h1 | h1
        · exact h1 ▸ ⟨[], rfl, by simp⟩
        · exact ih h' l h1
      · simp only [splitLines, if_neg hc] at hl
        cases hS : splitLines cs with
        | nil => exact absurd hS (splitLines_ne_nil hcs)
        | cons l0 ls =>
          rw [hS] at hl
          simp only [consFirst] at hl
          rcases List.mem_cons.mp hl with h1 | h1
          · subst h1
            exact properLine_cons hc (ih h' l0 (hS ▸ List.mem_cons_self l0 ls))
          · exact ih h' l (hS ▸ List.mem_cons_of_mem l0 h1)

theorem mem_flatten_infix {ls : List (List Char)} {l : List Char} (h : l ∈ ls) :
    l <:+: ls.flatten := by
  induction ls with
  | nil => simp at h
  | cons a ls ih =>
    rcases List.mem_cons.mp h with h1 | h1
    · subst h1
      exact (List.prefix_append l ls.flatten).isInfix
    · exact (ih h1).trans (List.suffix_append a ls.flatten).isInfix

theorem mem_splitLines_infix {cs l : List Char} (h : l ∈ splitLines cs) : l <:+: cs :=
  flatten_splitLines cs ▸ mem_flatten_infix h

/-! Character-level facts about the validated values and the journald keys,
and computation rules for `pyStrip`. -/
theorem hasInfix_iff {pat l : List Char} : hasInfix pat l = true ↔ pat <:+: l := by
  induction l with
  | nil => simp only [hasInfix, List.isEmpty_iff, List.infix_nil]
  | cons c cs ih =>
    simp only [hasInfix, Bool.or_eq_true, List.isPrefixOf_iff_prefix, ih, List.infix_cons_iff]

theorem pyIsSpace_cases {c : Char} (h : pyIsSpace c = true) :
    c = ' ' ∨ c = '\t' ∨ c = '\n' ∨ c = '\r' ∨ c = '\x0b' ∨ c = '\x0c' := by
  have h' := h
  simp only [pyIsSpace, Bool.or_eq_true, decide_eq_true_eq] at h'
  tauto

theorem not_space_ne_nl {c : Char} (h : pyIsSpace c = false) : c ≠ '\n' := by
  intro hc
  subst hc
  exact absurd h (by decide)

theorem isDigit_not_space {c : Char} (h : isDigit c = true) : pyIsSpace c = false := by
  cases hs : pyIsSpace c
  · rfl
  · rcases pyIsSpace_cases hs with rfl | rfl | rfl | rfl | rfl | rfl <;> exact absurd h (by decide)

theorem isDigit_ne_lbrack {c : Char} (h : isDigit c = true) : c ≠ '[' := by
  intro hc
  subst hc
  exact absurd h (by decide)

theorem isAlphaNum_not_space {c : Char} (h : isAlphaNum c = true) : pyIsSpace c = false := by
  cases hs : pyIsSpace c
  · rfl
  · rcases pyIsSpace_cases hs with rfl | rfl | rfl | rfl | rfl | rfl <;> exact absurd h (by decide)

theorem isAlphaNum_ne {c : Char} (h : isAlphaNum c = true) :
    c ≠ '[' ∧ c ≠ '\n' ∧ c ≠ '#' ∧ c ≠ '=' := by
  refine ⟨?_, ?_, ?_, ?_⟩ <;> (intro hc; subst hc; exact absurd h (by decide))

theorem unitChars_facts {c : Char} (h : unitChars.contains c = true) :
    pyIsSpace c = false ∧ c ≠ '[' := by
  have hm : c ∈ unitChars := by simpa using h
  fin_cases hm <;> exact ⟨by decide, by decide⟩

theorem specDollarRest_cases {rest : List Char} (h : specDollarRest rest = true) :
    rest = [] ∨ ∃ u, rest = [u] ∧ unitChars.contains u = true := by
  match rest with
  | [] => exact Or.inl rfl
  | [u] => exact Or.inr ⟨u, rfl, by simpa [specDollarRest] using h⟩
  | _ :: _ :: _ => simp [specDollarRest] at h

theorem specAllowPattern_facts {v : String} (h : specAllowPattern v = true) :
    v.data ≠ [] ∧ ∀ c ∈ v.data, pyIsSpace c = false ∧ c ≠ '[' := by
  simp only [specAllowPattern, Bool.or_eq_true, Bool.and_eq_true, Bool.not_eq_true',
    List.isEmpty_eq_false] at h
  rcases h with ⟨hne, hrest⟩ | htok
  · have hsplit := List.takeWhile_append_dropWhile (p := isDigit) (l := v.data)
    refine ⟨?_, ?_⟩
    · intro h0
      rw [h0] at hne
      simp at hne
    · intro c hc
      rw [← hsplit] at hc
      rcases List.mem_append.mp hc with h1 | h1
      · have hd := List.mem_takeWhile_imp h1
        exact ⟨isDigit_not_space hd, isDigit_ne_lbrack hd⟩
      · rcases specDollarRest_cases hrest with hnil | ⟨u, hu, huc⟩
        · rw [hnil] at h1
          simp at h1
        · rw [hu] at h1
          simp only [List.mem_singleton] at h1
          subst h1
          exact unitChars_facts huc
  · simp only [journaldTokens, List.any_cons, List.any_nil, Bool.or_eq_true,
      decide_eq_true_eq] at htok
    rcases htok with h1 | h1 | h1 | h1 | h1 | h1
    all_goals first
      | (rw [h1]; exact ⟨by decide, by decide⟩)
      | simp at h1

theorem specAllowPattern_val_regex {v : String} (h : specAllowPattern v = true) :
    val_regex_match v = true := by
  simp only [specAllowPattern, val_regex_match, Bool.or_eq_true, Bool.and_eq_true] at *
  rcases h with ⟨h1, h2⟩ | htok
  · left
    refine ⟨h1, ?_⟩
    rcases specDollarRest_cases h2 with hnil | ⟨u, hu, huc⟩
    · rw [hnil]; rfl
    · rw [hu]
      simp only [dollarRest, Bool.or_eq_true]
      exact Or.inr huc
  · right
    rcases List.any_eq_true.mp htok with ⟨t, ht, heq⟩
    refine List.any_eq_true.mpr ⟨t, ht, ?_⟩
    simp only [decide_eq_true_eq] at heq
    simp [heq]

theorem goodKey_facts {k : String} (h : goodKey k = true) :
    k.data ≠ [] ∧ ∀ c ∈ k.data,
      pyIsSpace c = false ∧ c ≠ '[' ∧ c ≠ '\n' ∧ c ≠ '#' ∧ c ≠ '=' := by
  simp only [goodKey, Bool.and_eq_true, Bool.not_eq_true', List.isEmpty_eq_false,
    List.all_eq_true] at h
  obtain ⟨h1, h2⟩ := h
  refine ⟨h1, fun c hc => ?_⟩
  have ha := h2 c hc
  obtain ⟨e1, e2, e3, e4⟩ := isAlphaNum_ne ha
  exact ⟨isAlphaNum_not_space ha, e1, e2, e3, e4⟩

theorem getLast?_cons_of_ne {c : Char} {l : List Char} (h : l ≠ []) :
    (c :: l).getLast? = l.getLast? := by
  cases l with
  | nil => exact absurd rfl h
  | cons d ds => simp [List.getLast?_cons_cons]

theorem getLast?_mem {l : List Char} (h : l ≠ []) : ∃ c, l.getLast? = some c ∧ c ∈ l :=
  ⟨l.getLast h, List.getLast?_eq_getLast l h, List.getLast_mem h⟩

theorem pyStripRight_append_singleton (Y : List Char) (c : Char) :
    pyStripRight (Y ++ [c]) = if pyIsSpace c then pyStripRight Y else Y ++ [c] := by
  by_cases h : pyIsSpace c
  · simp [pyStripRight, List.dropWhile_cons, h]
  · simp [pyStripRight, List.dropWhile_cons, h]

theorem pyStripRight_eq_self {Y : List Char} {c : Char} (h : Y.getLast? = some c)
    (hc : pyIsSpace c = false) : pyStripRight Y = Y := by
  induction Y using List.reverseRecOn with
  | nil => simp at h
  | append_singleton T d _ =>
    have hd : d = c := by simpa using h
    subst hd
    rw [pyStripRight_append_singleton, if_neg (by simp [hc])]

theorem prefix_pyStripRight {P X : List Char} (hP : P <+: X) {c : Char}
    (hlast : P.getLast? = some c) (hc : pyIsSpace c = false) : P <+: pyStripRight X := by
  obtain ⟨T, rfl⟩ := hP
  induction T using List.reverseRecOn with
  | nil => rw [List.append_nil, pyStripRight_eq_self hlast hc]
  | append_singleton T d ih =>
    rw [← List.append_assoc, pyStripRight_append_singleton]
    by_cases hd : pyIsSpace d
    · rw [if_pos hd]
      exact ih
    · rw [if_neg hd]
      exact (List.prefix_append P T).trans (List.prefix_append (P ++ T) [d])

theorem pyStripLeft_cons_of_not_space {c : Char} (l : List Char) (h : pyIsSpace c = false) :
    pyStripLeft (c :: l) = c :: l := by
  simp [pyStripLeft, List.dropWhile_cons, h]

theorem pyStripLeft_append {X : List Char} (Y : List Char)
    (hex : ∃ c ∈ X, pyIsSpace c = false) :
    pyStripLeft (X ++ Y) = pyStripLeft X ++ Y := by
  induction X with
  | nil =>
    obtain ⟨c, hc, _⟩ := hex
    simp at hc
  | cons a X ih =>
    by_cases ha : pyIsSpace a
    · have hex' : ∃ c ∈ X, pyIsSpace c = false := by
        obtain ⟨c, hc, hns⟩ := hex
        rcases List.mem_cons.mp hc with rfl | hcX
        · rw [ha] at hns
          cases hns
        · exact ⟨c, hcX, hns⟩
      simpa [pyStripLeft, List.dropWhile_cons, ha] using ih hex'
    · simp [pyStripLeft, List.dropWhile_cons, ha]

theorem pyStrip_insLine {k v : String} (hk : goodKey k = true)
    (hv : specAllowPattern v = true) : pyStrip (insLine k v) = k.data ++ '=' :: v.data := by
  obtain ⟨hkne, hkc⟩ := goodKey_facts hk
  obtain ⟨hvne, hvc⟩ := specAllowPattern_facts hv
  have hassoc : insLine k v = (k.data ++ '=' :: v.data) ++ ['\n'] := by simp [insLine]
  cases hkd : k.data with
  | nil => exact absurd hkd hkne
  | cons k0 ks =>
    have hk0 : pyIsSpace k0 = false := (hkc k0 (by rw [hkd]; exact List.mem_cons_self k0 ks)).1
    have hleft : pyStripLeft (insLine k v) = insLine k v := by
      have hins : insLine k v = k0 :: (ks ++ '=' :: (v.data ++ ['\n'])) := by
        simp [insLine, hkd]
      rw [hins, pyStripLeft_cons_of_not_space _ hk0]
    obtain ⟨lc, hlc, hlcm⟩ := getLast?_mem hvne
    have hlcns : pyIsSpace lc = false := (hvc lc hlcm).1
    have hYlast : (k.data ++ '=' :: v.data).getLast? = some lc := by
      rw [List.getLast?_append_of_ne_nil _ (by simp : ('=' :: v.data) ≠ []),
        getLast?_cons_of_ne hvne, hlc]
    rw [pyStrip, hleft, hassoc, pyStripRight_append_singleton, if_pos (by decide),
      pyStripRight_eq_self hYlast hlcns, hkd]

theorem assignsKey_insLine {k v : String} (hk : goodKey k = true)
    (hv : specAllowPattern v = true) : assignsKey k (insLine k v) = true := by
  simp only [assignsKey, pyStrip_insLine hk hv, Bool.or_eq_true, List.isPrefixOf_iff_prefix]
  exact Or.inl ⟨v.data, by simp⟩

theorem containsMarker_insLine {k v : String} (hk : goodKey k = true)
    (hv : specAllowPattern v = true) : containsMarker (insLine k v) = false := by
  obtain ⟨_, hkc⟩ := goodKey_facts hk
  obtain ⟨_, hvc⟩ := specAllowPattern_facts hv
  cases h : containsMarker (insLine k v)
  · rfl
  · exfalso
    have hinf : marker <:+: insLine k v := hasInfix_iff.mp h
    have hmem : '[' ∈ insLine k v := hinf.subset (by decide)
    rw [insLine] at hmem
    rcases List.mem_append.mp hmem with h1 | h1
    · exact (hkc '[' h1).2.1 rfl
    · rcases List.mem_cons.mp h1 with h2 | h2
      · exact absurd h2 (by decide)
      · rcases List.mem_append.mp h2 with h3 | h3
        · exact (hvc '[' h3).2 rfl
        · simp only [List.mem_singleton] at h3
          exact absurd h3 (by decide)

theorem properLine_insLine {k v : String} (hk : goodKey k = true)
    (hv : specAllowPattern v = true) : properLine (insLine k v) := by
  obtain ⟨_, hkc⟩ := goodKey_facts hk
  obtain ⟨_, hvc⟩ := specAllowPattern_facts hv
  refine ⟨k.data ++ '=' :: v.data, by simp [insLine], ?_⟩
  intro hmem
  rcases List.mem_append.mp hmem with h1 | h1
  · exact (hkc '\n' h1).2.2.1 rfl
  · rcases List.mem_cons.mp h1 with h2 | h2
    · exact absurd h2 (by decide)
    · exact not_space_ne_nl (hvc '\n' h2).1 rfl

theorem pyStrip_sectionHeader : pyStrip sectionHeader = marker := by decide

theorem containsMarker_sectionHeader : containsMarker sectionHeader = true := by decide

theorem properLine_sectionHeader : properLine sectionHeader :=
  ⟨marker, rfl, by decide⟩

theorem assignsKey_sectionHeader {k : String} (hk : goodKey k = true) :
    assignsKey k sectionHeader = false := by
  obtain ⟨hkne, hkc⟩ := goodKey_facts hk
  cases h : assignsKey k sectionHeader
  · rfl
  · exfalso
    rw [assignsKey, pyStrip_sectionHeader] at h
    rcases Bool.or_eq_true_iff.mp h with h1 | h1
    · have hpre := List.isPrefixOf_iff_prefix.mp h1
      cases hkd : k.data with
      | nil => exact hkne hkd
      | cons k0 ks =>
        rw [hkd] at hpre
        have hhd := (List.cons_prefix_cons.mp hpre).1
        have hk0 : k0 ∈ k.data := by rw [hkd]; exact List.mem_cons_self k0 ks
        exact (hkc k0 hk0).2.1 hhd
    · have hpre := List.isPrefixOf_iff_prefix.mp h1
      have hhd := (List.cons_prefix_cons.mp hpre).1
      exact absurd hhd (by decide)

/-! Lemmas about the filtering and insertion loops. -/
theorem insertAfterMarker_no_marker {ins : List Char} {ls : List (List Char)}
    (h : ∀ l ∈ ls, containsMarker l = false) : insertAfterMarker ins ls = ls := by
  induction ls with
  | nil => rfl
  | cons a ls ih =>
    rw [insertAfterMarker, if_neg (by simp [h a (List.mem_cons_self a ls)]),
      ih fun l hl => h l (List.mem_cons_of_mem a hl)]

theorem insertAfterMarker_append (ins : List Char) (X Y : List (List Char)) :
    insertAfterMarker ins (X ++ Y) = insertAfterMarker ins X ++ insertAfterMarker ins Y := by
  induction X with
  | nil => rfl
  | cons a X ih =>
    by_cases h : containsMarker a
    · simp only [List.cons_append, insertAfterMarker, if_pos h, List.append_eq, ih]
    · simp only [List.cons_append, insertAfterMarker, if_neg h, List.append_eq, ih]

theorem insertAfterMarker_single_marker {ins : List Char} {P Q : List (List Char)}
    {M : List Char} (hP : ∀ l ∈ P, containsMarker l = false) (hM : containsMarker M = true)
    (hQ : ∀ l ∈ Q, containsMarker l = false) :
    insertAfterMarker ins (P ++ M :: Q) = P ++ M :: ins :: Q := by
  rw [insertAfterMarker_append, insertAfterMarker_no_marker hP, insertAfterMarker,
    if_pos hM, insertAfterMarker_no_marker hQ]

/-- Decompose a line list around the first line containing the marker. -/
theorem first_marker_decomp {ls : List (List Char)} (h : ls.any containsMarker = true) :
    ∃ P M Q, ls = P ++ M :: Q ∧ (∀ l ∈ P, containsMarker l = false) ∧
      containsMarker M = true := by
  induction ls with
  | nil => simp at h
  | cons a ls ih =>
    by_cases ha : containsMarker a
    · exact ⟨[], a, ls, rfl, by simp, ha⟩
    · have h' : ls.any containsMarker = true := by
        simpa [List.any_cons, ha] using h
      obtain ⟨P, M, Q, heq, hP, hM⟩ := ih h'
      refine ⟨a :: P, M, Q, by rw [heq]; rfl, ?_, hM⟩
      intro l hl
      rcases List.mem_cons.mp hl with rfl | hl
      · simpa using ha
      · exact hP l hl

theorem countP_split_no_marker {P Q : List (List Char)} {M : List Char}
    (h : (P ++ M :: Q).countP containsMarker ≤ 1) (hM : containsMarker M = true) :
    ∀ l ∈ Q, containsMarker l = false := by
  rw [List.countP_append, List.countP_cons] at h
  simp only [hM, if_pos] at h
  have hQ : Q.countP containsMarker = 0 := by omega
  intro l hl
  have hl0 := List.countP_eq_zero.mp hQ l hl
  simpa using hl0

theorem prefix_append_cases {P A B : List Char} (h : P <+: A ++ B) : P <+: A ∨ A <+: P := by
  rcases le_or_lt P.length A.length with hlen | hlen
  · exact Or.inl (List.prefix_of_prefix_length_le h (List.prefix_append A B) hlen)
  · exact Or.inr (List.prefix_of_prefix_length_le (List.prefix_append A B) h (le_of_lt hlen))

/-- A line that contains the marker and does not assign the key still does not
assign the key after the fresh assignment line is glued onto its end (this is
what happens when the marker line is the last line of a file with no final
newline). -/
theorem assignsKey_merge_false {k v : String} {M : List Char} (hk : goodKey k = true)
    (hv : specAllowPattern v = true) (hM : containsMarker M = true)
    (hMa : assignsKey k M = false) : assignsKey k (M ++ insLine k v) = false := by
  obtain ⟨hkne, hkc⟩ := goodKey_facts hk
  obtain ⟨hvne, hvc⟩ := specAllowPattern_facts hv
  have hlb : '[' ∈ M := (hasInfix_iff.mp hM).subset (by decide)
  have hlb' : '[' ∈ pyStripLeft M := by
    have hsplit := List.takeWhile_append_dropWhile (p := pyIsSpace) (l := M)
    rw [← hsplit] at hlb
    rcases List.mem_append.mp hlb with h1 | h1
    · exact absurd (List.mem_takeWhile_imp h1) (by decide)
    · exact h1
  have hleft : pyStripLeft (M ++ insLine k v) = pyStripLeft M ++ insLine k v :=
    pyStripLeft_append _ ⟨'[', hlb, by decide⟩
  obtain ⟨lc, hlc, hlcm⟩ := getLast?_mem hvne
  have hlcns : pyIsSpace lc = false := (hvc lc hlcm).1
  have hYlast : (pyStripLeft M ++ (k.data ++ '=' :: v.data)).getLast? = some lc := by
    rw [List.getLast?_append_of_ne_nil _ (by simp),
      List.getLast?_append_of_ne_nil _ (by simp : ('=' :: v.data) ≠ []),
      getLast?_cons_of_ne hvne, hlc]
  have hstrip : pyStrip (M ++ insLine k v) = pyStripLeft M ++ (k.data ++ '=' :: v.data) := by
    rw [pyStrip, hleft]
    have h1 : pyStripLeft M ++ insLine k v
        = (pyStripLeft M ++ (k.data ++ '=' :: v.data)) ++ ['\n'] := by
      simp [insLine]
    rw [h1, pyStripRight_append_singleton, if_pos (by decide),
      pyStripRight_eq_self hYlast hlcns]
  rw [assignsKey, Bool.or_eq_false_iff] at hMa
  obtain ⟨hMa1, hMa2⟩ := hMa
  have main : ∀ P : List Char, P.getLast? = some '=' → '[' ∉ P →
      P.isPrefixOf (pyStrip M) = false →
      P.isPrefixOf (pyStrip (M ++ insLine k v)) = false := by
    intro P hPlast hPlb hPM
    cases hres : P.isPrefixOf (pyStrip (M ++ insLine k v))
    · rfl
    · exfalso
      rw [hstrip] at hres
      have hpre := List.isPrefixOf_iff_prefix.mp hres
      rcases prefix_append_cases hpre with h1 | h1
      · have h2 : P <+: pyStrip M :=
          prefix_pyStripRight h1 hPlast (by decide)
        have h3 := List.isPrefixOf_iff_prefix.mpr h2
        rw [hPM] at h3
        cases h3
      · exact hPlb (h1.subset hlb')
  rw [assignsKey, Bool.or_eq_false_iff]
  constructor
  · refine main _ (List.getLast?_concat _) ?_ hMa1
    intro hmem
    rcases List.mem_append.mp hmem with h1 | h1
    · exact (hkc '[' h1).2.1 rfl
    · simp only [List.mem_singleton] at h1
      exact absurd h1 (by decide)
  · refine main _ ?_ ?_ hMa2
    · exact List.getLast?_concat _
    · intro hmem
      rcases List.mem_append.mp hmem with h1 | h1
      · rcases List.mem_cons.mp h1 with h2 | h2
        · exact absurd h2 (by decide)
        · exact (hkc '[' h2).2.1 rfl
      · simp only [List.mem_singleton] at h1
        exact absurd h1 (by decide)

theorem wfLines_append_left_proper {X Y : List (List Char)} (h : wfLines (X ++ Y))
    (hY : Y ≠ []) : ∀ l ∈ X, properLine l := by
  induction X with
  | nil => simp
  | cons x X ih =>
    intro l hl
    rcases List.mem_cons.mp hl with rfl | hl
    · rcases h.2.1 with h1 | h1
      · exact absurd (List.append_eq_nil.mp h1).2 hY
      · exact h1
    · exact ih h.2.2 l hl

theorem splitLines_proper_prepend {P : List (List Char)} (hP : ∀ l ∈ P, properLine l)
    (r : List Char) : splitLines (P.flatten ++ r) = P ++ splitLines r := by
  induction P with
  | nil => simp
  | cons p P ih =>
    obtain ⟨b, hpb, hb⟩ := hP p (List.mem_cons_self p P)
    rw [List.flatten_cons, hpb]
    have hassoc : ((b ++ ['\n']) ++ P.flatten) ++ r = b ++ '\n' :: (P.flatten ++ r) := by simp
    rw [hassoc, splitLines_line_cons _ hb,
      ih fun l hl => hP l (List.mem_cons_of_mem p hl)]
    rfl

/-! The three shapes one successful `set_journald_property` file rewrite can
take, each stated as the written content together with how it re-reads as
lines. `F` abbreviates the filtered lines of the original content. -/
theorem journaldUpdate_case_header {k v : String} {c : List Char}
    (hk : goodKey k = true) (hv : specAllowPattern v = true)
    (hno : ∀ l ∈ (splitLines c).filter (fun l => !assignsKey k l), containsMarker l = false) :
    journaldUpdate k v c
      = (sectionHeader :: insLine k v :: (splitLines c).filter (fun l => !assignsKey k l)).flatten
    ∧ splitLines (journaldUpdate k v c)
      = sectionHeader :: insLine k v :: (splitLines c).filter (fun l => !assignsKey k l) := by
  have hwfF : wfLines ((splitLines c).filter (fun l => !assignsKey k l)) :=
    wfLines_sublist (List.filter_sublist _) (wfLines_splitLines c)
  have hupd : updateLines k v (splitLines c)
      = (sectionHeader ++ insLine k v) :: (splitLines c).filter (fun l => !assignsKey k l) := by
    have hany : ((splitLines c).filter (fun l => !assignsKey k l)).any containsMarker = false :=
      List.any_eq_false.mpr (by intro x hx; simp [hno x hx])
    simp only [updateLines]
    rw [if_neg (by simp [hany])]
  have hcontent : journaldUpdate k v c
      = (sectionHeader :: insLine k v :: (splitLines c).filter (fun l => !assignsKey k l)).flatten := by
    rw [journaldUpdate, hupd]
    simp
  refine ⟨hcontent, ?_⟩
  rw [hcontent]
  obtain ⟨b, hbv, hb⟩ := properLine_insLine hk hv
  have hflt : (sectionHeader :: insLine k v :: (splitLines c).filter (fun l => !assignsKey k l)).flatten
      = marker ++ '\n' :: (b ++ '\n' ::
          ((splitLines c).filter (fun l => !assignsKey k l)).flatten) := by
    simp [sectionHeader, hbv]
  rw [hflt, splitLines_line_cons _ (by decide), splitLines_line_cons _ hb,
    splitLines_flatten hwfF, ← hbv]
  rfl

theorem journaldUpdate_case_insert {k v : String} {c : List Char} {P Q : List (List Char)}
    {M : List Char} (hk : goodKey k = true) (hv : specAllowPattern v = true)
    (hfil : (splitLines c).filter (fun l => !assignsKey k l) = P ++ M :: Q)
    (hP : ∀ l ∈ P, containsMarker l = false) (hM : containsMarker M = true)
    (hQ : ∀ l ∈ Q, containsMarker l = false) (hMp : properLine M) :
    journaldUpdate k v c = (P ++ M :: insLine k v :: Q).flatten
    ∧ splitLines (journaldUpdate k v c) = P ++ M :: insLine k v :: Q := by
  have hwfF : wfLines (P ++ M :: Q) := by
    rw [← hfil]
    exact wfLines_sublist (List.filter_sublist _) (wfLines_splitLines c)
  have hupd : updateLines k v (splitLines c) = P ++ M :: insLine k v :: Q := by
    simp only [updateLines]
    rw [hfil, if_pos (List.any_eq_true.mpr ⟨M, by simp, hM⟩),
      insertAfterMarker_single_marker hP hM hQ]
  have hcontent : journaldUpdate k v c = (P ++ M :: insLine k v :: Q).flatten := by
    rw [journaldUpdate, hupd]
  refine ⟨hcontent, ?_⟩
  have hwfQ : wfLines Q := by
    refine wfLines_sublist ?_ hwfF
    have hsfx : (P ++ [M]) ++ Q = P ++ M :: Q := by simp
    exact hsfx ▸ List.sublist_append_right (P ++ [M]) Q
  have hwfnew : wfLines (P ++ M :: insLine k v :: Q) := by
    refine wfLines_append (wfLines_append_left_proper hwfF (by simp)) ?_
    exact ⟨properLine_lineShape hMp, Or.inr hMp,
      properLine_lineShape (properLine_insLine hk hv), Or.inr (properLine_insLine hk hv), hwfQ⟩
  rw [hcontent, splitLines_flatten hwfnew]

theorem journaldUpdate_case_merge {k v : String} {c : List Char} {P : List (List Char)}
    {M : List Char} (hk : goodKey k = true) (hv : specAllowPattern v = true)
    (hfil : (splitLines c).filter (fun l => !assignsKey k l) = P ++ [M])
    (hP : ∀ l ∈ P, containsMarker l = false) (hM : containsMarker M = true)
    (hMnl : '\n' ∉ M) :
    journaldUpdate k v c = (P ++ [M ++ insLine k v]).flatten
    ∧ splitLines (journaldUpdate k v c) = P ++ [M ++ insLine k v] := by
  have hwfF : wfLines (P ++ [M]) := by
    rw [← hfil]
    exact wfLines_sublist (List.filter_sublist _) (wfLines_splitLines c)
  have hupd : updateLines k v (splitLines c) = P ++ [M, insLine k v] := by
    simp only [updateLines]
    rw [hfil, if_pos (List.any_eq_true.mpr ⟨M, by simp, hM⟩),
      insertAfterMarker_single_marker hP hM (by simp)]
  have hcontent : journaldUpdate k v c = (P ++ [M ++ insLine k v]).flatten := by
    rw [journaldUpdate, hupd]
    simp
  refine ⟨hcontent, ?_⟩
  rw [hcontent]
  have hPp : ∀ l ∈ P, properLine l := wfLines_append_left_proper hwfF (by simp)
  obtain ⟨b, hbv, hb⟩ := properLine_insLine hk hv
  have hflt : (P ++ [M ++ insLine k v]).flatten = P.flatten ++ ((M ++ b) ++ '\n' :: []) := by
    simp [hbv]
  have hnb : '\n' ∉ M ++ b := by
    intro hmem
    rcases List.mem_append.mp hmem with h1 | h1
    · exact hMnl h1
    · exact hb h1
  rw [hflt, splitLines_proper_prepend hPp, splitLines_line_cons _ hnb]
  simp [hbv, splitLines]

theorem countP_one_decomp {k : String} {A B : List (List Char)} {M ins : List Char}
    (hA : ∀ l ∈ A, assignsKey k l = false) (hM : assignsKey k M = false)
    (hins : assignsKey k ins = true) (hB : ∀ l ∈ B, assignsKey k l = false) :
    (A ++ M :: ins :: B).countP (assignsKey k) = 1 := by
  rw [List.countP_append, List.countP_cons, List.countP_cons]
  have hA0 : A.countP (assignsKey k) = 0 :=
    List.countP_eq_zero.mpr (by intro a ha; simp [hA a ha])
  have hB0 : B.countP (assignsKey k) = 0 :=
    List.countP_eq_zero.mpr (by intro a ha; simp [hB a ha])
  rw [hA0, hB0]
  simp [hM, hins]

/-- Patching the same key twice: the final file has exactly one line assigning
the key, it carries the value of the second call, and it sits immediately
after a marker line, provided the original file had at most one line
containing the marker. -/
theorem journald_patch_twice (k v1 v2 : String) (c : List Char)
    (hk : goodKey k = true) (hv1 : specAllowPattern v1 = true)
    (hv2 : specAllowPattern v2 = true) (hvne : v1 ≠ v2)
    (hcount : (splitLines c).countP containsMarker ≤ 1) :
    ∃ A M B,
      splitLines (journaldUpdate k v2 (journaldUpdate k v1 c))
        = A ++ M :: insLine k v2 :: B
      ∧ containsMarker M = true
      ∧ (splitLines (journaldUpdate k v2 (journaldUpdate k v1 c))).countP (assignsKey k) = 1
      ∧ (∀ l ∈ A, assignsKey k l = false)
      ∧ (∀ l ∈ B, assignsKey k l = false) := by
  have hFsub : ((splitLines c).filter (fun l => !assignsKey k l)).Sublist (splitLines c) :=
    List.filter_sublist _
  have hwfF := wfLines_sublist hFsub (wfLines_splitLines c)
  have hcountF : ((splitLines c).filter (fun l => !assignsKey k l)).countP containsMarker ≤ 1 :=
    le_trans (hFsub.countP_le _) hcount
  have hFna : ∀ l ∈ (splitLines c).filter (fun l => !assignsKey k l),
      assignsKey k l = false := by
    intro l hl
    have hmem := List.of_mem_filter hl
    simpa using hmem
  by_cases hany : ((splitLines c).filter (fun l => !assignsKey k l)).any containsMarker
  · obtain ⟨P, M, Q, hdecomp, hPnm, hMm⟩ := first_marker_decomp hany
    have hQnm : ∀ l ∈ Q, containsMarker l = false :=
      countP_split_no_marker (hdecomp ▸ hcountF) hMm
    have hMmem : M ∈ (splitLines c).filter (fun l => !assignsKey k l) := by
      rw [hdecomp]
      exact List.mem_append_right P (List.mem_cons_self M Q)
    have hMa : assignsKey k M = false := hFna M hMmem
    have hPmem : ∀ l ∈ P, assignsKey k l = false := by
      intro l hl
      exact hFna l (by rw [hdecomp]; exact List.mem_append_left _ hl)
    have hQmem : ∀ l ∈ Q, assignsKey k l = false := by
      intro l hl
      exact hFna l (by rw [hdecomp]; exact List.mem_append_right _ (List.mem_cons_of_mem M hl))
    rcases lineShape_cases (wfLines_mem hwfF hMmem) with hMp | ⟨hMnl, hMne⟩
    · obtain ⟨hc1, hl1⟩ := journaldUpdate_case_insert hk hv1 hdecomp hPnm hMm hQnm hMp
      have hfil2 : (splitLines (journaldUpdate k v1 c)).filter (fun l => !assignsKey k l)
          = P ++ M :: Q := by
        rw [hl1, List.filter_append, List.filter_cons_of_pos (by simp [hMa]),
          List.filter_cons_of_neg (by simp [assignsKey_insLine hk hv1]),
          List.filter_eq_self.mpr (fun l hl => by simp [hPmem l hl]),
          List.filter_eq_self.mpr (fun l hl => by simp [hQmem l hl])]
      obtain ⟨hc2, hl2⟩ := journaldUpdate_case_insert hk hv2 hfil2 hPnm hMm hQnm hMp
      refine ⟨P, M, Q, hl2, hMm, ?_, hPmem, hQmem⟩
      rw [hl2]
      exact countP_one_decomp hPmem hMa (assignsKey_insLine hk hv2) hQmem
    · have hQnil : Q = [] := by
        by_contra hne
        obtain ⟨b, hb, _⟩ := wfLines_middle (hdecomp ▸ hwfF) hne
        exact hMnl (hb ▸ List.mem_append_right b (List.mem_singleton_self '\n'))
      subst hQnil
      obtain ⟨hc1, hl1⟩ := journaldUpdate_case_merge hk hv1 hdecomp hPnm hMm hMnl
      have hMa' : assignsKey k (M ++ insLine k v1) = false :=
        assignsKey_merge_false hk hv1 hMm hMa
      have hMm' : containsMarker (M ++ insLine k v1) = true :=
        hasInfix_iff.mpr ((hasInfix_iff.mp hMm).trans (List.prefix_append M _).isInfix)
      have hMp' : properLine (M ++ insLine k v1) := by
        obtain ⟨b, hbv, hb⟩ := properLine_insLine hk hv1
        refine ⟨M ++ b, by rw [hbv]; simp, ?_⟩
        intro hmem
        rcases List.mem_append.mp hmem with h1 | h1
        · exact hMnl h1
        · exact hb h1
      have hfil2 : (splitLines (journaldUpdate k v1 c)).filter (fun l => !assignsKey k l)
          = P ++ (M ++ insLine k v1) :: [] := by
        rw [hl1]
        have hall : ∀ l ∈ P ++ [M ++ insLine k v1], (!assignsKey k l) = true := by
          intro l hl
          rcases List.mem_append.mp hl with h1 | h1
          · simp [hPmem l h1]
          · simp only [List.mem_singleton] at h1
            rw [h1]
            simp [hMa']
        rw [List.filter_eq_self.mpr hall]
      obtain ⟨hc2, hl2⟩ := journaldUpdate_case_insert hk hv2 hfil2 hPnm hMm' (by simp) hMp'
      refine ⟨P, M ++ insLine k v1, [], hl2, hMm', ?_, hPmem, by simp⟩
      rw [hl2]
      exact countP_one_decomp hPmem hMa' (assignsKey_insLine hk hv2) (by simp)
  · have hno : ∀ l ∈ (splitLines c).filter (fun l => !assignsKey k l),
        containsMarker l = false := by
      intro l hl
      have hfalse : ((splitLines c).filter (fun l => !assignsKey k l)).any containsMarker
          = false := by simpa using hany
      have := List.any_eq_false.mp hfalse l hl
      simpa using this
    obtain ⟨hc1, hl1⟩ := journaldUpdate_case_header hk hv1 hno
    have hfil2 : (splitLines (journaldUpdate k v1 c)).filter (fun l => !assignsKey k l)
        = [] ++ sectionHeader :: (splitLines c).filter (fun l => !assignsKey k l) := by
      rw [hl1, List.filter_cons_of_pos (by simp [assignsKey_sectionHeader hk]),
        List.filter_cons_of_neg (by simp [assignsKey_insLine hk hv1]),
        List.filter_eq_self.mpr (fun l hl => by simp [hFna l hl])]
      rfl
    obtain ⟨hc2, hl2⟩ := journaldUpdate_case_insert hk hv2 hfil2 (by simp)
      containsMarker_sectionHeader hno properLine_sectionHeader
    refine ⟨[], sectionHeader, (splitLines c).filter (fun l => !assignsKey k l), hl2,
      containsMarker_sectionHeader, ?_, by simp, hFna⟩
    rw [hl2]
    exact countP_one_decomp (by simp) (assignsKey_sectionHeader hk)
      (assignsKey_insLine hk hv2) hFna

/-- Idempotence of the patch on newline-terminated files with exactly one
marker line. -/
theorem journald_patch_idem (k v : String) (c : List Char)
    (hk : goodKey k = true) (hv : specAllowPattern v = true)
    (hone : (splitLines c).countP containsMarker = 1)
    (hnl : c.getLast? = some '\n') :
    journaldUpdate k v (journaldUpdate k v c) = journaldUpdate k v c := by
  have hproper := splitLines_all_proper hnl
  have hFsub : ((splitLines c).filter (fun l => !assignsKey k l)).Sublist (splitLines c) :=
    List.filter_sublist _
  have hwfF := wfLines_sublist hFsub (wfLines_splitLines c)
  have hcountF : ((splitLines c).filter (fun l => !assignsKey k l)).countP containsMarker ≤ 1 :=
    le_trans (hFsub.countP_le _) (le_of_eq hone)
  have hFna : ∀ l ∈ (splitLines c).filter (fun l => !assignsKey k l),
      assignsKey k l = false := by
    intro l hl
    have hmem := List.of_mem_filter hl
    simpa using hmem
  by_cases hany : ((splitLines c).filter (fun l => !assignsKey k l)).any containsMarker
  · obtain ⟨P, M, Q, hdecomp, hPnm, hMm⟩ := first_marker_decomp hany
    have hQnm : ∀ l ∈ Q, containsMarker l = false :=
      countP_split_no_marker (hdecomp ▸ hcountF) hMm
    have hMmem : M ∈ (splitLines c).filter (fun l => !assignsKey k l) := by
      rw [hdecomp]
      exact List.mem_append_right P (List.mem_cons_self M Q)
    have hMa : assignsKey k M = false := hFna M hMmem
    have hPmem : ∀ l ∈ P, assignsKey k l = false := by
      intro l hl
      exact hFna l (by rw [hdecomp]; exact List.mem_append_left _ hl)
    have hQmem : ∀ l ∈ Q, assignsKey k l = false := by
      intro l hl
      exact hFna l (by rw [hdecomp]; exact List.mem_append_right _ (List.mem_cons_of_mem M hl))
    have hMp : properLine M := hproper M (List.mem_of_mem_filter hMmem)
    obtain ⟨hc1, hl1⟩ := journaldUpdate_case_insert hk hv hdecomp hPnm hMm hQnm hMp
    have hfil2 : (splitLines (journaldUpdate k v c)).filter (fun l => !assignsKey k l)
        = P ++ M :: Q := by
      rw [hl1, List.filter_append, List.filter_cons_of_pos (by simp [hMa]),
        List.filter_cons_of_neg (by simp [assignsKey_insLine hk hv]),
        List.filter_eq_self.mpr (fun l hl => by simp [hPmem l hl]),
        List.filter_eq_self.mpr (fun l hl => by simp [hQmem l hl])]
    obtain ⟨hc2, hl2⟩ := journaldUpdate_case_insert hk hv hfil2 hPnm hMm hQnm hMp
    rw [hc2, hc1]
  · have hno : ∀ l ∈ (splitLines c).filter (fun l => !assignsKey k l),
        containsMarker l = false := by
      intro l hl
      have hfalse : ((splitLines c).filter (fun l => !assignsKey k l)).any containsMarker
          = false := by simpa using hany
      have := List.any_eq_false.mp hfalse l hl
      simpa using this
    obtain ⟨hc1, hl1⟩ := journaldUpdate_case_header hk hv hno
    have hfil2 : (splitLines (journaldUpdate k v c)).filter (fun l => !assignsKey k l)
        = [] ++ sectionHeader :: (splitLines c).filter (fun l => !assignsKey k l) := by
      rw [hl1, List.filter_cons_of_pos (by simp [assignsKey_sectionHeader hk]),
        List.filter_cons_of_neg (by simp [assignsKey_insLine hk hv]),
        List.filter_eq_self.mpr (fun l hl => by simp [hFna l hl])]
      rfl
    obtain ⟨hc2, _⟩ := journaldUpdate_case_insert hk hv hfil2 (by simp)
      containsMarker_sectionHeader hno properLine_sectionHeader
    rw [hc2, hc1]
    simp

/-! Relating the Python regex semantics of `val_regex` to the spec's
description of the allow-pattern. -/
theorem takeWhile_append_all {p : Char → Bool} {A : List Char} (B : List Char)
    (hA : ∀ c ∈ A, p c = true) : (A ++ B).takeWhile p = A ++ B.takeWhile p := by
  induction A with
  | nil => rfl
  | cons a A ih =>
    rw [List.cons_append, List.takeWhile_cons, if_pos (hA a (List.mem_cons_self a A)),
      ih fun c hc => hA c (List.mem_cons_of_mem a hc)]
    rfl

theorem dropWhile_append_all {p : Char → Bool} {A : List Char} (B : List Char)
    (hA : ∀ c ∈ A, p c = true) : (A ++ B).dropWhile p = B.dropWhile p := by
  induction A with
  | nil => rfl
  | cons a A ih =>
    rw [List.cons_append, List.dropWhile_cons, if_pos (hA a (List.mem_cons_self a A)),
      ih fun c hc => hA c (List.mem_cons_of_mem a hc)]

theorem unitChars_not_digit : ∀ u ∈ unitChars, isDigit u = false := by decide

theorem dollarRest_cases {rest : List Char} (h : dollarRest rest = true) :
    rest = [] ∨ rest = ['\n'] ∨ (∃ u, rest = [u] ∧ unitChars.contains u = true) ∨
      (∃ u, rest = [u, '\n'] ∧ unitChars.contains u = true) := by
  match rest with
  | [] => exact Or.inl rfl
  | [c] =>
    simp only [dollarRest, Bool.or_eq_true, decide_eq_true_eq] at h
    rcases h with h | h
    · exact Or.inr (Or.inl (by rw [h]))
    · exact Or.inr (Or.inr (Or.inl ⟨c, rfl, h⟩))
  | [u, c] =>
    simp only [dollarRest, Bool.and_eq_true, decide_eq_true_eq] at h
    exact Or.inr (Or.inr (Or.inr ⟨u, by rw [h.2], h.1⟩))
  | _ :: _ :: _ :: _ => simp [dollarRest] at h

theorem journaldTokens_no_nl :
    ∀ t ∈ journaldTokens, ∀ c ∈ t.data, c ≠ '\n' := by decide

/-- The acceptance of `val_regex` under Python `re.match` is exactly the
spec's allow-pattern, up to one trailing newline tolerated by `$`. -/
theorem val_regex_match_iff (v : String) :
    val_regex_match v = true ↔
      (specAllowPattern v = true ∨ ∃ w, v.data = w.data ++ ['\n'] ∧ specAllowPattern w = true) := by
  constructor
  · intro h
    simp only [val_regex_match, Bool.or_eq_true, Bool.and_eq_true, Bool.not_eq_true',
      List.isEmpty_eq_false] at h
    rcases h with ⟨hne, hrest⟩ | htok
    · have hsplit := List.takeWhile_append_dropWhile (p := isDigit) (l := v.data)
      have hdig : ∀ c ∈ v.data.takeWhile isDigit, isDigit c = true :=
        fun c hc => List.mem_takeWhile_imp hc
      have htw : (v.data.takeWhile isDigit).takeWhile isDigit = v.data.takeWhile isDigit := by
        have hx := takeWhile_append_all ([] : List Char) hdig
        simpa using hx
      have hdw : (v.data.takeWhile isDigit).dropWhile isDigit = [] := by
        have hx := dropWhile_append_all ([] : List Char) hdig
        simpa using hx
      rcases dollarRest_cases hrest with h0 | h0 | ⟨u, h0, hu⟩ | ⟨u, h0, hu⟩
      · left
        simp only [specAllowPattern, Bool.or_eq_true, Bool.and_eq_true, Bool.not_eq_true',
          List.isEmpty_eq_false]
        exact Or.inl ⟨hne, by rw [h0]; rfl⟩
      · right
        refine ⟨String.mk (v.data.takeWhile isDigit), ?_, ?_⟩
        · show v.data = v.data.takeWhile isDigit ++ ['\n']
          rw [← h0]
          exact hsplit.symm
        · simp only [specAllowPattern, Bool.or_eq_true, Bool.and_eq_true, Bool.not_eq_true',
            List.isEmpty_eq_false]
          left
          refine ⟨?_, ?_⟩
          · show (v.data.takeWhile isDigit).takeWhile isDigit ≠ []
            rw [htw]
            exact hne
          · show specDollarRest ((v.data.takeWhile isDigit).dropWhile isDigit) = true
            rw [hdw]
            rfl
      · left
        simp only [specAllowPattern, Bool.or_eq_true, Bool.and_eq_true, Bool.not_eq_true',
          List.isEmpty_eq_false]
        refine Or.inl ⟨hne, ?_⟩
        rw [h0]
        simp only [specDollarRest]
        exact hu
      · right
        have hund : isDigit u = false := unitChars_not_digit u (by simpa using hu)
        refine ⟨String.mk (v.data.takeWhile isDigit ++ [u]), ?_, ?_⟩
        · show v.data = (v.data.takeWhile isDigit ++ [u]) ++ ['\n']
          rw [List.append_assoc]
          conv_lhs => rw [← hsplit]
          rw [h0]
          rfl
        · simp only [specAllowPattern, Bool.or_eq_true, Bool.and_eq_true, Bool.not_eq_true',
            List.isEmpty_eq_false]
          left
          have h1 : (v.data.takeWhile isDigit ++ [u]).takeWhile isDigit
              = v.data.takeWhile isDigit := by
            rw [takeWhile_append_all _ hdig]
            simp [List.takeWhile_cons, hund]
          have h2 : (v.data.takeWhile isDigit ++ [u]).dropWhile isDigit = [u] := by
            rw [dropWhile_append_all _ hdig]
            simp [List.dropWhile_cons, hund]
          refine ⟨?_, ?_⟩
          · show (v.data.takeWhile isDigit ++ [u]).takeWhile isDigit ≠ []
            rw [h1]
            exact hne
          · show specDollarRest ((v.data.takeWhile isDigit ++ [u]).dropWhile isDigit) = true
            rw [h2]
            simpa [specDollarRest] using hu
    · rcases List.any_eq_true.mp htok with ⟨t, ht, heq⟩
      simp only [Bool.or_eq_true, decide_eq_true_eq] at heq
      rcases heq with heq | heq
      · left
        simp only [specAllowPattern, Bool.or_eq_true]
        exact Or.inr (List.any_eq_true.mpr ⟨t, ht, by simp [heq]⟩)
      · right
        exact ⟨t, heq, by
          simp only [specAllowPattern, Bool.or_eq_true]
          exact Or.inr (List.any_eq_true.mpr ⟨t, ht, by simp⟩)⟩
  · intro h
    rcases h with h | ⟨w, hw, hsw⟩
    · exact specAllowPattern_val_regex h
    · simp only [specAllowPattern, Bool.or_eq_true, Bool.and_eq_true, Bool.not_eq_true',
        List.isEmpty_eq_false] at hsw
      simp only [val_regex_match, Bool.or_eq_true, Bool.and_eq_true, Bool.not_eq_true',
        List.isEmpty_eq_false]
      rcases hsw with ⟨hne, hrest⟩ | htok
      · left
        have hsplit := List.takeWhile_append_dropWhile (p := isDigit) (l := w.data)
        have hdig : ∀ c ∈ w.data.takeWhile isDigit, isDigit c = true :=
          fun c hc => List.mem_takeWhile_imp hc
        rcases specDollarRest_cases hrest with h0 | ⟨u, h0, hu⟩
        · have hwall : ∀ c ∈ w.data, isDigit c = true := by
            intro c hc
            rw [← hsplit, h0, List.append_nil] at hc
            exact hdig c hc
          have hwne : w.data ≠ [] := by
            intro h1
            apply hne
            rw [h1]
            rfl
          refine ⟨?_, ?_⟩
          · rw [hw, takeWhile_append_all _ hwall]
            have hred : (['\n'] : List Char).takeWhile isDigit = [] := by decide
            rw [hred, List.append_nil]
            exact hwne
          · rw [hw, dropWhile_append_all _ hwall]
            decide
        · have hund : isDigit u = false := unitChars_not_digit u (by simpa using hu)
          have hwd : w.data = w.data.takeWhile isDigit ++ [u] := by
            rw [← h0]
            exact hsplit.symm
          refine ⟨?_, ?_⟩
          · rw [hw, hwd, List.append_assoc, takeWhile_append_all _ hdig]
            have hred : (([u] ++ ['\n']) : List Char).takeWhile isDigit = [] := by
              simp [List.takeWhile_cons, hund]
            rw [hred, List.append_nil]
            exact hne
          · rw [hw, hwd, List.append_assoc, dropWhile_append_all _ hdig]
            have hred : (([u] ++ ['\n']) : List Char).dropWhile isDigit = [u, '\n'] := by
              simp [List.dropWhile_cons, hund]
            rw [hred]
            simp only [dollarRest, Bool.and_eq_true, decide_eq_true_eq]
            exact ⟨hu, trivial⟩
      · right
        rcases List.any_eq_true.mp htok with ⟨t, ht, heq⟩
        simp only [decide_eq_true_eq] at heq
        exact List.any_eq_true.mpr ⟨t, ht, by simp [hw, heq]⟩

/-! Theorems about the stateful behaviour of `set_journald_property`. -/

/-- When no filesystem primitive raises, the Boolean result of the call is
exactly the `re.match` test of the value. -/
theorem set_journald_property_fst (k v : String) (s : FsState) :
    (set_journald_property none k v s).1 = val_regex_match v := by
  rw [set_journald_property]
  by_cases h : val_regex_match v
  · rw [if_neg (by simp [h])]
    rw [backupStep]
    by_cases hb : s.backup.isNone
    · rw [if_pos hb, if_neg (by simp)]
      simp [h]
    · rw [if_neg hb]
      simp [h]
  · have h' : val_regex_match v = false := by simpa using h
    rw [if_pos (by simp [h'])]
    exact h'.symm

/-- A rejected value leaves the whole state (config and backup) untouched and
returns `False`, whatever filesystem faults might be pending. -/
theorem set_journald_property_invalid (oracle : Option FsErr) (k v : String) (s : FsState)
    (h : val_regex_match v = false) :
    set_journald_property oracle k v s = (false, s) := by
  rw [set_journald_property, if_pos (by simp [h])]

/-- A successful validated call with no faults rewrites the config with
`journaldUpdate` and creates the backup exactly when it was absent. -/
theorem set_journald_property_valid (k v : String) (s : FsState)
    (h : val_regex_match v = true) :
    set_journald_property none k v s =
      (true, ⟨journaldUpdate k v s.config,
        some (s.backup.getD s.config)⟩) := by
  rw [set_journald_property, if_neg (by simp [h]), backupStep]
  cases hb : s.backup with
  | none => simp [hb]
  | some b => simp [hb]

/-- Full behaviour of a validated call under a pending filesystem fault:
what succeeds, what the config holds afterwards, and what happens to the
backup. Every fault is absorbed into a `false` return (the function is total),
the config file keeps its pre-call content unless the final write succeeded,
and the backup is only ever created once, never rolled back or overwritten. -/
theorem set_journald_property_faults (oracle : Option FsErr) (k v : String) (s : FsState)
    (hv : val_regex_match v = true) :
    ((set_journald_property oracle k v s).1 = true
      ↔ oracle ≠ some FsErr.readFail ∧ oracle ≠ some FsErr.writeFail
        ∧ (oracle = some FsErr.copyFail → s.backup ≠ none))
    ∧ ((set_journald_property oracle k v s).1 = true →
        ((set_journald_property oracle k v s).2).config = journaldUpdate k v s.config)
    ∧ ((set_journald_property oracle k v s).1 = false →
        ((set_journald_property oracle k v s).2).config = s.config)
    ∧ (((set_journald_property oracle k v s).2).backup = s.backup
        ∨ (s.backup = none ∧ ((set_journald_property oracle k v s).2).backup = some s.config)) := by
  rw [set_journald_property, if_neg (by simp [hv]), backupStep]
  cases hb : s.backup with
  | none =>
    simp only [Option.isNone_none, if_true]
    rcases oracle with _ | e
    · simp [hb]
    · cases e <;> simp [hb]
  | some b =>
    simp only [Option.isNone_some, Bool.false_eq_true, if_false]
    rcases oracle with _ | e
    · simp [hb]
    · cases e <;> simp [hb]

/-- The backup file is written once with the pre-edit config and never
overwritten afterwards. -/
theorem set_journald_property_backup (k v : String) (s : FsState) :
    (val_regex_match v = true → s.backup = none →
      ((set_journald_property none k v s).2).backup = some s.config)
    ∧ (∀ oracle b, s.backup = some b →
      ((set_journald_property oracle k v s).2).backup = some b) := by
  constructor
  · intro hv hb
    rw [set_journald_property_valid k v s hv]
    simp [hb]
  · intro oracle b hb
    cases hv : val_regex_match v with
    | false => rw [set_journald_property_invalid oracle k v s hv, hb]
    | true =>
      rw [set_journald_property, if_neg (by simp [hv]), backupStep, hb]
      simp only [Option.isNone_some, Bool.false_eq_true, if_false]
      rcases oracle with _ | e
      · simp [hb]
      · cases e <;> simp [hb]

/-! Content-level results for an absent section (C4) and the spec's phrasing
of the algorithm (C5). -/

/-- When the marker occurs nowhere in the file, the rewrite prepends the
header and assignment and keeps exactly the filtered original lines below. -/
theorem journald_patch_absent_section (k v : String) (c : List Char)
    (hk : goodKey k = true) (hv : specAllowPattern v = true)
    (hm : hasInfix marker c = false) :
    journaldUpdate k v c
      = sectionHeader ++ insLine k v
        ++ ((splitLines c).filter (fun l => !assignsKey k l)).flatten
    ∧ ((∀ l ∈ splitLines c, assignsKey k l = false) →
        journaldUpdate k v c = sectionHeader ++ insLine k v ++ c) := by
  have hno : ∀ l ∈ (splitLines c).filter (fun l => !assignsKey k l),
      containsMarker l = false := by
    intro l hl
    cases hcm : containsMarker l
    · rfl
    · exfalso
      have hinf : marker <:+: l := hasInfix_iff.mp hcm
      have hlin : l <:+: c := mem_splitLines_infix (List.mem_of_mem_filter hl)
      have hmc := hasInfix_iff.mpr (hinf.trans hlin)
      rw [hm] at hmc
      cases hmc
  obtain ⟨hc1, _⟩ := journaldUpdate_case_header hk hv hno
  have hfirst : journaldUpdate k v c
      = sectionHeader ++ insLine k v
        ++ ((splitLines c).filter (fun l => !assignsKey k l)).flatten := by
    rw [hc1]
    simp
  refine ⟨hfirst, ?_⟩
  intro hall
  rw [hfirst, List.filter_eq_self.mpr (fun l hl => by simp [hall l hl]),
    flatten_splitLines]

/-- The insertion loop written as the spec phrases the amended algorithm:
one pass that keeps every line and duplicates in an assignment after each
line containing the marker. -/
theorem insertAfterMarker_eq_flatten_map (ins : List Char) (ls : List (List Char)) :
    insertAfterMarker ins ls
      = (ls.map (fun l => if containsMarker l then [l, ins] else [l])).flatten := by
  induction ls with
  | nil => rfl
  | cons a ls ih =>
    by_cases h : containsMarker a
    · simp [insertAfterMarker, h, ih]
    · simp [insertAfterMarker, h, ih]

/-- Refinement: the code's rewrite is exactly the amended-claim algorithm. -/
theorem journaldUpdate_eq_spec (k v : String) (c : List Char) :
    journaldUpdate k v c = specUpdateAmended k v c := by
  rw [journaldUpdate, updateLines, specUpdateAmended]
  by_cases h : ((splitLines c).filter (fun l => !assignsKey k l)).any containsMarker
  · simp only [h, if_true, insertAfterMarker_eq_flatten_map]
  · simp only [h, Bool.false_eq_true, if_false]

/-- Control model of `main` for claim C7: with just the program name the run
prints the usage text, exits with status 1 and dispatches no action. -/
theorem main_no_args_usage (argv : List String) (h : argv.length = 1) :
    mainModel argv = ⟨some 1, true, []⟩ := by
  match argv, h with
  | [p], _ =>
    simp [mainModel, parseArgsFrom]

/-! Claim-level theorems. -/

/-- C1 (amended): for every target file content with at most one line
containing the section marker, calling `set_journald_property` on the same
key twice with two different valid values leaves exactly one assignment line
of that key in the resulting file, its value being the one from the second
call, and that line sits immediately after a line containing the section
marker (the section header itself when the section had to be created). -/
theorem c1_patch_twice_amended (k v1 v2 : String) (s : FsState)
    (hk : goodKey k = true) (hv1 : specAllowPattern v1 = true)
    (hv2 : specAllowPattern v2 = true) (hvne : v1 ≠ v2)
    (hcount : (splitLines s.config).countP containsMarker ≤ 1) :
    ∃ A M B,
      splitLines (((set_journald_property none k v2
          ((set_journald_property none k v1 s).2)).2).config)
        = A ++ M :: insLine k v2 :: B
      ∧ containsMarker M = true
      ∧ (splitLines (((set_journald_property none k v2
          ((set_journald_property none k v1 s).2)).2).config)).countP (assignsKey k) = 1
      ∧ (∀ l ∈ A, assignsKey k l = false)
      ∧ (∀ l ∈ B, assignsKey k l = false) := by
  have hcfg1 : ((set_journald_property none k v1 s).2).config
      = journaldUpdate k v1 s.config := by
    rw [set_journald_property_valid k v1 s (specAllowPattern_val_regex hv1)]
  have hcfg2 : (((set_journald_property none k v2
      ((set_journald_property none k v1 s).2)).2).config)
      = journaldUpdate k v2 (journaldUpdate k v1 s.config) := by
    rw [set_journald_property_valid k v2 _ (specAllowPattern_val_regex hv2), hcfg1]
  rw [hcfg2]
  exact journald_patch_twice k v1 v2 s.config hk hv1 hv2 hvne hcount

/-- Witness for C1 at `Storage`, values `persistent` then `volatile`, on a
config with one marker line and a commented assignment. -/
theorem c1_patch_twice_witness :
    (goodKey "Storage" = true ∧ specAllowPattern "persistent" = true
      ∧ specAllowPattern "volatile" = true ∧ ("persistent" : String) ≠ "volatile"
      ∧ (splitLines stateA.config).countP containsMarker ≤ 1)
    ∧ ∃ A M B,
      splitLines (((set_journald_property none "Storage" "volatile"
          ((set_journald_property none "Storage" "persistent" stateA).2)).2).config)
        = A ++ M :: insLine "Storage" "volatile" :: B
      ∧ containsMarker M = true
      ∧ (splitLines (((set_journald_property none "Storage" "volatile"
          ((set_journald_property none "Storage" "persistent" stateA).2)).2).config)).countP
          (assignsKey "Storage") = 1
      ∧ (∀ l ∈ A, assignsKey "Storage" l = false)
      ∧ (∀ l ∈ B, assignsKey "Storage" l = false) :=
  ⟨by decide, c1_patch_twice_amended "Storage" "persistent" "volatile" stateA
    (by decide) (by decide) (by decide) (by decide) (by decide)⟩

/-- Counterexample to C1 as stated: on a file with two `[Journal]` lines, two
valid calls leave two assignment lines of the key, not exactly one, because
the insertion loop appends after every marker line. -/
theorem c1_counterexample :
    specAllowPattern "persistent" = true ∧ specAllowPattern "volatile" = true
    ∧ (splitLines (((set_journald_property none "Storage" "volatile"
        ((set_journald_property none "Storage" "persistent"
          ⟨"[Journal]\n[Journal]\n".data, none⟩).2)).2).config)).countP
        (assignsKey "Storage") = 2 := by decide

/-- C2 (amended): `set_journald_property` accepts a value exactly when it
matches the allow-pattern or the allow-pattern followed by one trailing
newline (Python's `$` matches just before a final newline); every other value
is rejected with the failure indicator and the state untouched. -/
theorem c2_validation_amended (oracle : Option FsErr) (k v : String) (s : FsState) :
    ((set_journald_property none k v s).1 = true
      ↔ (specAllowPattern v = true
        ∨ ∃ w, v.data = w.data ++ ['\n'] ∧ specAllowPattern w = true))
    ∧ (specAllowPattern v = false →
        (∀ w, v.data = w.data ++ ['\n'] → specAllowPattern w = false) →
        set_journald_property oracle k v s = (false, s)) := by
  constructor
  · rw [set_journald_property_fst]
    exact val_regex_match_iff v
  · intro h1 h2
    apply set_journald_property_invalid
    cases hvr : val_regex_match v
    · rfl
    · exfalso
      rcases (val_regex_match_iff v).mp hvr with h | ⟨w, hw, hsw⟩
      · rw [h1] at h
        cases h
      · rw [h2 w hw] at hsw
        cases hsw

/-- Witness for C2 at the spec's own example value `bogus!!`. -/
theorem c2_validation_witness :
    ((set_journald_property none "Storage" "bogus!!" stateB).1 = true
      ↔ (specAllowPattern "bogus!!" = true
        ∨ ∃ w, "bogus!!".data = w.data ++ ['\n'] ∧ specAllowPattern w = true))
    ∧ (specAllowPattern "bogus!!" = false →
        (∀ w, "bogus!!".data = w.data ++ ['\n'] → specAllowPattern w = false) →
        set_journald_property none "Storage" "bogus!!" stateB = (false, stateB)) :=
  c2_validation_amended none "Storage" "bogus!!" stateB

/-- Counterexample to C2 as stated: the value `"100\n"` fails the spec's
allow-pattern, yet the call reports success and rewrites the file. -/
theorem c2_counterexample :
    specAllowPattern "100\n" = false
    ∧ (set_journald_property none "SystemMaxUse" "100\n" stateB).1 = true
    ∧ ((set_journald_property none "SystemMaxUse" "100\n" stateB).2).config
        ≠ stateB.config := by decide

/-- C3: on the first successful edit the backup is created with the pre-edit
config content, and once a backup exists no call (faulty or not) ever
overwrites it. -/
theorem c3_backup_first_call_wins (k v : String) (s : FsState) :
    (val_regex_match v = true → s.backup = none →
      ((set_journald_property none k v s).2).backup = some s.config)
    ∧ ∀ oracle b, s.backup = some b →
      ((set_journald_property oracle k v s).2).backup = some b :=
  set_journald_property_backup k v s

/-- Witness for C3: the first call on a backup-less state stores the original
config, and a second call leaves that backup in place. -/
theorem c3_backup_witness :
    (val_regex_match "persistent" = true ∧ stateA.backup = none)
    ∧ ((set_journald_property none "Storage" "persistent" stateA).2).backup
        = some stateA.config
    ∧ ((set_journald_property none "Storage" "volatile"
        ((set_journald_property none "Storage" "persistent" stateA).2)).2).backup
        = some stateA.config := by
  refine ⟨by decide, ?_, ?_⟩
  · exact (c3_backup_first_call_wins "Storage" "persistent" stateA).1 (by decide) rfl
  · have h1 : ((set_journald_property none "Storage" "persistent" stateA).2).backup
        = some stateA.config :=
      (c3_backup_first_call_wins "Storage" "persistent" stateA).1 (by decide) rfl
    exact (c3_backup_first_call_wins "Storage" "volatile"
      ((set_journald_property none "Storage" "persistent" stateA).2)).2 none _ h1

/-- C4 (amended): when the section marker occurs nowhere in the file, the
result begins with the new section header line followed by the assignment
line; below them the pre-existing content appears with the lines assigning
the target key removed, hence verbatim whenever no such line existed. -/
theorem c4_absent_section_amended (k v : String) (s : FsState)
    (hk : goodKey k = true) (hv : specAllowPattern v = true)
    (hm : hasInfix marker s.config = false) :
    ((set_journald_property none k v s).2).config
      = sectionHeader ++ insLine k v
        ++ ((splitLines s.config).filter (fun l => !assignsKey k l)).flatten
    ∧ ((∀ l ∈ splitLines s.config, assignsKey k l = false) →
        ((set_journald_property none k v s).2).config
          = sectionHeader ++ insLine k v ++ s.config) := by
  have hcfg : ((set_journald_property none k v s).2).config
      = journaldUpdate k v s.config := by
    rw [set_journald_property_valid k v s (specAllowPattern_val_regex hv)]
  rw [hcfg]
  exact journald_patch_absent_section k v s.config hk hv hm

/-- Witness for C4: the spec's example, `SystemMaxUse` set to `100M` against
a file with no `[Journal]` section (and no prior assignment). -/
theorem c4_absent_section_witness :
    (goodKey "SystemMaxUse" = true ∧ specAllowPattern "100M" = true
      ∧ hasInfix marker stateD.config = false
      ∧ (∀ l ∈ splitLines stateD.config, assignsKey "SystemMaxUse" l = false))
    ∧ ((set_journald_property none "SystemMaxUse" "100M" stateD).2).config
        = "[Journal]\nSystemMaxUse=100M\nfoo\nbar\n".data := by
  refine ⟨by decide, ?_⟩
  have h := (c4_absent_section_amended "SystemMaxUse" "100M" stateD
    (by decide) (by decide) (by decide)).2 (by decide)
  rw [h]
  decide

/-- Counterexample to C4 as stated: against a marker-free file that already
assigns the key, the pre-existing content is not preserved verbatim below the
new header because the old assignment line is dropped. -/
theorem c4_counterexample :
    hasInfix marker "SystemMaxUse=1M\nfoo\n".data = false
    ∧ specAllowPattern "100M" = true
    ∧ ((set_journald_property none "SystemMaxUse" "100M"
        ⟨"SystemMaxUse=1M\nfoo\n".data, none⟩).2).config
      ≠ sectionHeader ++ insLine "SystemMaxUse" "100M" ++ "SystemMaxUse=1M\nfoo\n".data := by
  decide

/-- C5 (amended): for every valid value the new file content equals the
amended algorithm: drop every line whose whitespace-stripped form starts with
`key=` or `#key=`, insert a fresh assignment after every line containing the
section marker, and prepend the new header only when no kept line contains
the marker. -/
theorem c5_algorithm_amended (k v : String) (s : FsState)
    (hv : val_regex_match v = true) :
    ((set_journald_property none k v s).2).config = specUpdateAmended k v s.config := by
  rw [set_journald_property_valid k v s hv]
  exact journaldUpdate_eq_spec k v s.config

/-- Witness for C5 on a concrete config with a marker line. -/
theorem c5_algorithm_witness :
    val_regex_match "100M" = true
    ∧ ((set_journald_property none "SystemMaxUse" "100M" stateA).2).config
        = specUpdateAmended "SystemMaxUse" "100M" stateA.config :=
  ⟨by decide, c5_algorithm_amended "SystemMaxUse" "100M" stateA (by decide)⟩

/-- Counterexample to C5 as stated: on a file with a whitespace-indented
assignment and two marker lines, the code differs from the claim's algorithm
(raw `startswith` filtering and first-occurrence insertion). -/
theorem c5_counterexample :
    val_regex_match "persistent" = true
    ∧ journaldUpdate "Storage" "persistent" " Storage=old\n[Journal]\n[Journal]\n".data
      ≠ specUpdateClaim "Storage" "persistent" " Storage=old\n[Journal]\n[Journal]\n".data := by
  decide

/-- C6: the written `firefox.cfg` contains exactly one `lockPref` line per
input pair, in input order, and its only blank lines are the single blank
line preceding each comment separator. -/
theorem c6_pref_file :
    (splitLines firefox_cfg_content).filter lockPrefLine
      = firefoxPrefs.map (fun kv => renderPref kv.1 kv.2)
    ∧ blanksMatchComments (splitLines firefox_cfg_content) = true := by decide

/-- C7: invoked with an argument vector of length one, the program prints the
usage text, exits with failure status 1, and dispatches none of the
flag-selected actions. -/
theorem c7_no_args_usage (argv : List String) (h : argv.length = 1) :
    mainModel argv = ⟨some 1, true, []⟩ :=
  main_no_args_usage argv h

/-- Witness for C7 at the bare program name. -/
theorem c7_no_args_witness :
    (["./linuxmint-setup.py"] : List String).length = 1
    ∧ mainModel ["./linuxmint-setup.py"] = ⟨some 1, true, []⟩ :=
  ⟨by decide, c7_no_args_usage ["./linuxmint-setup.py"] (by decide)⟩

/-- C8: with a valid value, a fault in any filesystem primitive (backup copy,
read, write) is caught and returned as `False` (the call is total and raises
nothing); on success the call returns `True` and the config holds the rewrite;
on failure the config keeps its pre-call content; the backup is only ever
created once and never rolled back. -/
theorem c8_fs_error_caught (oracle : Option FsErr) (k v : String) (s : FsState)
    (hv : val_regex_match v = true) :
    ((set_journald_property oracle k v s).1 = true
      ↔ oracle ≠ some FsErr.readFail ∧ oracle ≠ some FsErr.writeFail
        ∧ (oracle = some FsErr.copyFail → s.backup ≠ none))
    ∧ ((set_journald_property oracle k v s).1 = true →
        ((set_journald_property oracle k v s).2).config = journaldUpdate k v s.config)
    ∧ ((set_journald_property oracle k v s).1 = false →
        ((set_journald_property oracle k v s).2).config = s.config)
    ∧ (((set_journald_property oracle k v s).2).backup = s.backup
        ∨ (s.backup = none ∧ ((set_journald_property oracle k v s).2).backup = some s.config)) :=
  set_journald_property_faults oracle k v s hv

/-- Witness for C8 under a read fault on a fresh state. -/
theorem c8_fs_error_witness :
    val_regex_match "persistent" = true
    ∧ (((set_journald_property (some FsErr.readFail) "Storage" "persistent" stateB).1 = true
      ↔ some FsErr.readFail ≠ some FsErr.readFail
        ∧ some FsErr.readFail ≠ some FsErr.writeFail
        ∧ (some FsErr.readFail = some FsErr.copyFail → stateB.backup ≠ none))
    ∧ ((set_journald_property (some FsErr.readFail) "Storage" "persistent" stateB).1 = true →
        ((set_journald_property (some FsErr.readFail) "Storage" "persistent" stateB).2).config
          = journaldUpdate "Storage" "persistent" stateB.config)
    ∧ ((set_journald_property (some FsErr.readFail) "Storage" "persistent" stateB).1 = false →
        ((set_journald_property (some FsErr.readFail) "Storage" "persistent" stateB).2).config
          = stateB.config)
    ∧ (((set_journald_property (some FsErr.readFail) "Storage" "persistent" stateB).2).backup
          = stateB.backup
        ∨ (stateB.backup = none
          ∧ ((set_journald_property (some FsErr.readFail) "Storage" "persistent"
              stateB).2).backup = some stateB.config))) :=
  ⟨by decide, c8_fs_error_caught (some FsErr.readFail) "Storage" "persistent" stateB (by decide)⟩

/-- C9: a value failing the allow-pattern causes no filesystem operation at
all: the call returns `False` and the whole state, in particular the absent
backup, is exactly as before, because validation precedes the backup check. -/
theorem c9_invalid_no_fs_effect (oracle : Option FsErr) (k v : String) (s : FsState)
    (h : val_regex_match v = false) :
    set_journald_property oracle k v s = (false, s) :=
  set_journald_property_invalid oracle k v s h

/-- Witness for C9 at `bogus!!` on a backup-less state. -/
theorem c9_invalid_witness :
    val_regex_match "bogus!!" = false
    ∧ set_journald_property none "Storage" "bogus!!" stateB = (false, stateB) :=
  ⟨by decide, c9_invalid_no_fs_effect none "Storage" "bogus!!" stateB (by decide)⟩

/-- C10 (amended): on a newline-terminated file content with exactly one line
containing the section marker, the patch is idempotent: re-applying the same
key and value leaves the file exactly as after the first application. -/
theorem c10_idempotent_amended (k v : String) (s : FsState)
    (hk : goodKey k = true) (hv : specAllowPattern v = true)
    (hone : (splitLines s.config).countP containsMarker = 1)
    (hnl : s.config.getLast? = some '\n') :
    ((set_journald_property none k v
        ((set_journald_property none k v s).2)).2).config
      = ((set_journald_property none k v s).2).config := by
  have hvr := specAllowPattern_val_regex hv
  have hcfg1 : ((set_journald_property none k v s).2).config
      = journaldUpdate k v s.config := by
    rw [set_journald_property_valid k v s hvr]
  have hcfg2 : ((set_journald_property none k v
      ((set_journald_property none k v s).2)).2).config
      = journaldUpdate k v (journaldUpdate k v s.config) := by
    rw [set_journald_property_valid k v _ hvr, hcfg1]
  rw [hcfg2, hcfg1]
  exact journald_patch_idem k v s.config hk hv hone hnl

/-- Witness for C10 on a newline-terminated config with one marker line. -/
theorem c10_idempotent_witness :
    (goodKey "Storage" = true ∧ specAllowPattern "persistent" = true
      ∧ (splitLines stateA.config).countP containsMarker = 1
      ∧ stateA.config.getLast? = some '\n')
    ∧ ((set_journald_property none "Storage" "persistent"
        ((set_journald_property none "Storage" "persistent" stateA).2)).2).config
      = ((set_journald_property none "Storage" "persistent" stateA).2).config :=
  ⟨by decide, c10_idempotent_amended "Storage" "persistent" stateA
    (by decide) (by decide) (by decide) (by decide)⟩

/-- Counterexample to C10 as stated: the content `[Journal]` has exactly one
marker line but no final newline; the first rewrite merges the assignment
onto that line, so a second identical call changes the file again. -/
theorem c10_counterexample :
    (splitLines "[Journal]".data).countP containsMarker = 1
    ∧ goodKey "Storage" = true ∧ specAllowPattern "persistent" = true
    ∧ ((set_journald_property none "Storage" "persistent"
        ((set_journald_property none "Storage" "persistent"
          ⟨"[Journal]".data, none⟩).2)).2).config
      ≠ ((set_journald_property none "Storage" "persistent"
          ⟨"[Journal]".data, none⟩).2).config := by decide

end UbuntuSetup


